import Mathlib

/-!
The iis forum: handlers and text helpers.

A shallow embedding of these parts of the repository:

* `src/action/user.go`: `APIUserKimochi`, `APILogin` (the recent-IP history),
  `APIFollowBlock`;
* `src/cmd/ch/mv/util.go`: `SoftTrunc`, `ExtractMentions`;
* `src/main.go`: the template helpers `isCDError` and `isITError`.

Go strings are byte sequences, so a Go `string` is a `List Nat` of byte values.
Lengths and indices are integers that stay far from the bounds of `int`; where
an `int` argument enters an addition (`n+2` in `SoftTrunc`) the sum wraps as the
64-bit `int` does.  A run-time fault (slice or index out of range) is an
explicit outcome, never a default value.
-/

namespace Iis

/-! ## Go strings -/

/-- A Go string: its sequence of bytes. -/
abbrev GoString := List Nat

/-- UTF-8 encoding of one code point. -/
def encodeRune (c : Nat) : List Nat :=
  if c < 0x80 then [c]
  else if c < 0x800 then [0xC0 + c / 64, 0x80 + c % 64]
  else if c < 0x10000 then [0xE0 + c / 4096, 0x80 + c / 64 % 64, 0x80 + c % 64]
  else [0xF0 + c / 262144, 0x80 + c / 4096 % 64, 0x80 + c / 64 % 64, 0x80 + c % 64]

/-- The bytes of a string literal (its UTF-8 encoding, as in a Go source file). -/
def str (s : String) : GoString :=
  s.toList.flatMap (fun c => encodeRune c.toNat)

/-- Go's `strings.HasPrefix(s, p)`. -/
def HasPrefix (s p : GoString) : Bool :=
  s.take p.length == p

/-- Go's slice expression `s[lo:hi]` on a string: it faults (`none`) unless
`0 ≤ lo ≤ hi ≤ len(s)`. -/
def sliceStr (s : GoString) (lo hi : Int) : Option GoString :=
  if 0 ≤ lo ∧ lo ≤ hi ∧ hi ≤ (s.length : Int) then
    some ((s.take hi.toNat).drop lo.toNat)
  else none

/-! ## `src/main.go`: template helpers -/

/-- The template function `isCDError`:
`if strings.HasPrefix(s, "guard/cooling-down/") { return s[19 : len(s)-1] }; return ""`. -/
def isCDError (s : GoString) : Option GoString :=
  if HasPrefix s (str "guard/cooling-down/") then
    sliceStr s 19 ((s.length : Int) - 1)
  else some []

/-- The template function `isITError`:
`if strings.HasPrefix(s, "image/throt/") { return s[12 : len(s)-1] }; return ""`. -/
def isITError (s : GoString) : Option GoString :=
  if HasPrefix s (str "image/throt/") then
    sliceStr s 12 ((s.length : Int) - 1)
  else some []

/-! ## `src/action/user.go`: the handlers' environment -/

/-- The fields of `model.User` that the handlers below read. -/
structure User where
  ID : GoString
  DataIP : GoString
deriving DecidableEq

/-- A value passed in the variadic field list of `dal.NewRequest`. -/
inductive FieldValue where
  | text (s : GoString)
  | byte (b : Nat)
  | uint32 (n : Nat)
  | flag (b : Bool)
deriving DecidableEq

/-- A call into the data-access layer made by a handler. -/
inductive DalCall where
  /-- The call `dal.Do(dal.NewRequest(dal.DoUpdateUser, k1, v1, k2, v2, ...))`. -/
  | doUpdateUser (fields : List (GoString × FieldValue))
  /-- The call `dal.FollowUser(from, to, follow)`. -/
  | followUser (src dst : GoString) (follow : Bool)
  /-- The call `dal.BlockUser(from, to, block)`. -/
  | blockUser (src dst : GoString) (block : Bool)
deriving DecidableEq

/-- The data-access layer as the handlers see it: each call returns an error
(`some message`) or succeeds (`none`).  The layer itself is not part of the
sources, so its behaviour is a parameter. -/
structure Dal where
  Do : List (GoString × FieldValue) → Option GoString
  FollowUser : GoString → GoString → Bool → Option GoString
  BlockUser : GoString → GoString → Bool → Option GoString

/-- What a handler reads from its `*gin.Context`. -/
structure Ctx where
  /-- Result of `dal.GetUserByContext(g)`; `none` is Go's `nil`. -/
  user : Option User
  /-- The function `g.PostForm`. -/
  PostForm : GoString → GoString
  /-- Result of `checkIP(g)`. -/
  checkIP : GoString

/-- What a handler did: the data-access calls in order and the body written
with `g.String(200, body)`. -/
structure Outcome where
  calls : List DalCall
  body : GoString
deriving DecidableEq

/-! ### `strconv.Atoi` -/

/-- Value of a non-empty string of decimal digits, `none` otherwise
(accumulator `acc`, `seen` tells whether a digit was read). -/
def digitsValue : List Nat → Nat → Bool → Option Nat
  | [], acc, seen => if seen then some acc else none
  | c :: cs, acc, _ =>
    if 48 ≤ c ∧ c ≤ 57 then digitsValue cs (acc * 10 + (c - 48)) true else none

/-- The integer returned by Go's `strconv.Atoi` on a 64-bit platform (its error
is discarded by the caller): an optional sign and decimal digits; `0` on a
syntax error; the nearest `int64` bound on a range error. -/
def Atoi (s : GoString) : Int :=
  let neg := s.head? == some 45
  let body := if s.head? == some 45 ∨ s.head? == some 43 then s.tail else s
  match digitsValue body 0 false with
  | none => 0
  | some un =>
    if neg then (if 2 ^ 63 < un then -(2 ^ 63 : Int) else -(un : Int))
    else (if 2 ^ 63 ≤ un then (2 ^ 63 : Int) - 1 else (un : Int))

/-- Go's conversion `byte(k)` of an `int`. -/
def toByte (k : Int) : Nat := (k % 256).toNat

/-! ### `APIUserKimochi` -/

/-- The handler `APIUserKimochi`. -/
def APIUserKimochi (dal : Dal) (g : Ctx) : Outcome :=
  match g.user with
  | none => ⟨[], str "internal/error"⟩
  | some u =>
    let k := Atoi (g.PostForm (str "k"))
    let k := if k < 0 ∨ k > 44 then 25 else k
    let req := [(str "ID", FieldValue.text u.ID), (str "Kimochi", FieldValue.byte (toByte k))]
    match dal.Do req with
    | some _ => ⟨[DalCall.doUpdateUser req], str "internal/error"⟩
    | none => ⟨[DalCall.doUpdateUser req], str "ok"⟩

/-! ### `APIFollowBlock` -/

/-- The handler `APIFollowBlock`. -/
def APIFollowBlock (dal : Dal) (g : Ctx) : Outcome :=
  let to_ := g.PostForm (str "to")
  match g.user with
  | none => ⟨[], str "internal/error"⟩
  | some u =>
    if to_ = [] ∨ u.ID = to_ then ⟨[], str "internal/error"⟩
    else if g.checkIP ≠ [] then ⟨[], g.checkIP⟩
    else if g.PostForm (str "method") = str "follow" then
      let follow := g.PostForm (str "follow") ≠ []
      match dal.FollowUser u.ID to_ follow with
      | some e => ⟨[DalCall.followUser u.ID to_ follow], e⟩
      | none => ⟨[DalCall.followUser u.ID to_ follow], str "ok"⟩
    else
      let block := g.PostForm (str "block") ≠ []
      match dal.BlockUser u.ID to_ block with
      | some e => ⟨[DalCall.blockUser u.ID to_ block], e⟩
      | none => ⟨[DalCall.blockUser u.ID to_ block], str "ok"⟩

/-! ### Slices of strings over a shared backing array -/

/-- A Go `[]string`: the backing array from the slice's first element up to its
capacity, and the slice's length (`cap = arr.length`). -/
structure StrSlice where
  arr : List GoString
  len : Nat

/-- The elements of a slice. -/
def StrSlice.toList (s : StrSlice) : List GoString := s.arr.take s.len

/-- Element-by-element copy inside one array, ascending: for `t = 0 .. k-1`,
`arr[dst+t] = arr[src+t]`, each read seeing the writes made before it. -/
def moveFwd : Nat → Nat → Nat → List GoString → List GoString
  | 0, _, _, arr => arr
  | k + 1, dst, src, arr => moveFwd k (dst + 1) (src + 1) (arr.set dst (arr.getD src []))

/-- Element-by-element copy inside one array, descending: for `t = k-1 .. 0`,
`arr[dst+t] = arr[src+t]`. -/
def moveBwd : Nat → Nat → Nat → List GoString → List GoString
  | 0, _, _, arr => arr
  | k + 1, dst, src, arr => moveBwd k dst src (arr.set (dst + k) (arr.getD (src + k) []))

/-- The runtime's `memmove` of `k` elements inside one array: ascending when the
destination lies before the source, descending otherwise. -/
def memmove (arr : List GoString) (dst src k : Nat) : List GoString :=
  if dst ≤ src then moveFwd k dst src arr else moveBwd k dst src arr

/-- Go's `append(a[:slen], a[src:src+k]...)`, both operands slices of the same
array `a`.  When the capacity suffices the elements are moved in place inside
the shared array; otherwise a fresh array is filled. -/
def appendWithin (a : StrSlice) (slen src k : Nat) : StrSlice :=
  if slen + k ≤ a.arr.length then ⟨memmove a.arr slen src k, slen + k⟩
  else ⟨a.arr.take slen ++ (a.arr.drop src).take k, slen + k⟩

/-! ### `APILogin` -/

/-- Go's `strings.Split(s, ",")`. -/
def Split : GoString → List GoString
  | [] => [[]]
  | c :: cs =>
    if c = 44 then [] :: Split cs
    else
      match Split cs with
      | [] => [[c]]
      | e :: es => (c :: e) :: es

/-- Go's `strings.Join(elems, ",")`. -/
def Join : List GoString → GoString
  | [] => []
  | [e] => e
  | e :: es => e ++ 44 :: Join es

/-- The slice `ips := append(strings.Split(u.DataIP, ","), hashIP(g))`.  The
result of `Split` is full, so `append` moves it to a fresh array whose capacity
exceeds the new length by `spare` (fixed by the runtime's growth policy). -/
def loginIPs (spare : Nat) (DataIP h : GoString) : StrSlice :=
  ⟨Split DataIP ++ [h] ++ List.replicate spare [], (Split DataIP).length + 1⟩

/-- The value assigned to `u.DataIP` in `APILogin`:
`if ips := ...; len(ips) > 5 { strings.Join(append(ips[:1], ips[len(ips)-4:]...), ",") }
else { strings.Join(ips, ",") }`. -/
def loginDataIP (spare : Nat) (DataIP h : GoString) : GoString :=
  let ips := loginIPs spare DataIP h
  if ips.len > 5 then Join (appendWithin ips 1 (ips.len - 4) 4).toList
  else Join ips.toList

/-- What `APILogin` reads besides the form: the results of the calls it makes
before it builds the update request. -/
structure LoginCtx where
  /-- Result of `checkIP(g)`. -/
  checkIP : GoString
  /-- Result of `dal.GetUser(sanUsername(g.PostForm("username")))`. -/
  user : Option User
  /-- Whether `bytes.Equal(u.PasswordHash, pwdHash.Sum(nil))` holds. -/
  passwordOK : Bool
  /-- Result of `genSession()`. -/
  session : GoString
  /-- Result of `uint32(time.Now().Unix())`. -/
  now : Nat
  /-- Result of `hashIP(g)`. -/
  hashIP : GoString
  /-- Spare capacity left by `append` when it grows the split history. -/
  spare : Nat

/-- The request `APILogin` passes to `dal.Do`. -/
def loginRequest (g : LoginCtx) (u : User) : List (GoString × FieldValue) :=
  [(str "ID", FieldValue.text u.ID),
   (str "Session", FieldValue.text g.session),
   (str "TLogin", FieldValue.uint32 g.now),
   (str "DataIP", FieldValue.text (loginDataIP g.spare u.DataIP g.hashIP))]

/-- The handler `APILogin`. -/
def APILogin (dal : Dal) (g : LoginCtx) : Outcome :=
  if g.checkIP ≠ [] then ⟨[], g.checkIP⟩
  else
    match g.user with
    | none => ⟨[], str "id/too-short"⟩
    | some u =>
      if !g.passwordOK then ⟨[], str "internal/error"⟩
      else
        match dal.Do (loginRequest g u) with
        | some e => ⟨[DalCall.doUpdateUser (loginRequest g u)], e⟩
        | none => ⟨[DalCall.doUpdateUser (loginRequest g u)], str "ok"⟩

/-! ## `src/cmd/ch/mv/util.go` -/

/-! ### `ExtractMentions` -/

/-- The regexp class `\s` of Go's `regexp` package: `[\t\n\f\r ]`. -/
def isSpaceByte (c : Nat) : Bool :=
  c = 9 ∨ c = 10 ∨ c = 12 ∨ c = 13 ∨ c = 32

/-- All successive non-overlapping leftmost matches of `(@\S+)`: an `@` followed
by the longest non-empty run of non-space bytes.  The first argument holds the
bytes (reversed) of the match under construction. -/
def scanMentions : Option (List Nat) → List Nat → List GoString
  | none, [] => []
  | some acc, [] => [acc.reverse]
  | none, c :: cs =>
    if c = 64 then
      match cs with
      | [] => []
      | d :: _ => if isSpaceByte d then scanMentions none cs else scanMentions (some [64]) cs
    else scanMentions none cs
  | some acc, c :: cs =>
    if isSpaceByte c then acc.reverse :: scanMentions none cs
    else scanMentions (some (c :: acc)) cs

/-- Go's `rxMentions.FindAllString(in, n)`: all matches when `n < 0`, else the
first `n`. -/
def FindAllString (input : GoString) (n : Int) : List GoString :=
  if n < 0 then scanMentions none input else (scanMentions none input).take n.toNat

/-- Outcome of a run that may fault or exhaust the fuel of its model. -/
inductive Run (α : Type) where
  | returned (v : α)
  | fault
  | outOfFuel
deriving DecidableEq

/-- Outcome of one execution of the outer `for i := range res` loop. -/
inductive Pass where
  /-- The loop ran to its end. -/
  | finished (res : List GoString)
  /-- The statement `goto AGAIN` was taken with this new `res`. -/
  | restart (res : List GoString)
  /-- A run-time panic. -/
  | fault
deriving DecidableEq

/-- The statement `res = append(res[:j], res[j+1:]...)`. -/
def removeAt (res : List GoString) (j : Nat) : List GoString :=
  (appendWithin ⟨res, res.length⟩ j (j + 1) (res.length - (j + 1))).toList

/-- The inner loop `for j := range res` at outer index `i` (with `ri = res[i]`):
the first `j` with `(i != j && res[i] == res[j]) || len(res[j]) > 18`, scanning
the remaining elements from index `j`. -/
def innerLoop (ri : GoString) (i : Nat) : List GoString → Nat → Option Nat
  | [], _ => none
  | rj :: rest, j =>
    if (i ≠ j ∧ ri = rj) ∨ 18 < rj.length then some j
    else innerLoop ri i rest (j + 1)

/-- The outer loop `for i := range res` from index `i` with `k` iterations left. -/
def outerLoop : Nat → Nat → List GoString → Pass
  | 0, _, res => Pass.finished res
  | k + 1, i, res =>
    match res[i]? with
    | none => Pass.fault
    | some ri =>
      match innerLoop ri i res 0 with
      | some j => Pass.restart (removeAt res j)
      | none =>
        match sliceStr ri 1 ri.length with
        | none => Pass.fault
        | some t => outerLoop k (i + 1) (res.set i t)

/-- The code from the label `AGAIN` on; `fuel` bounds the number of times the
label is reached. -/
def againLoop : Nat → List GoString → Run (List GoString)
  | 0, _ => Run.outOfFuel
  | fuel + 1, res =>
    match outerLoop res.length 0 res with
    | Pass.restart res1 => againLoop fuel res1
    | Pass.finished r => Run.returned r
    | Pass.fault => Run.fault

/-- The body of `ExtractMentions` after `res` is assigned.  Every `goto AGAIN`
follows the removal of one element, so `len(res) + 1` arrivals at the label
suffice (`extractFrom_ne_outOfFuel`). -/
def extractFrom (res : List GoString) : Run (List GoString) :=
  againLoop (res.length + 1) res

/-- The matches that survive until the first `res[i] = res[i][1:]`: those of at
most 18 bytes, without the later copies of the first of them. -/
def pruned (ms : List GoString) : List GoString :=
  match ms.filter (fun x => decide (x.length ≤ 18)) with
  | [] => []
  | x :: t => x :: t.filter (fun y => decide (y ≠ x))

/-- The function `ExtractMentions`, with `config.Cfg.MaxMentions` as a parameter. -/
def ExtractMentions (maxMentions : Int) (input : GoString) : Run (List GoString) :=
  extractFrom (FindAllString input maxMentions)

/-! ### UTF-8 -/

/-- A continuation byte `10xxxxxx`: the test `b>>6 == 2` of `SoftTrunc`. -/
def isCont (b : Nat) : Bool := b >>> 6 == 2

/-- Whether the bytes `c` are exactly one well-formed UTF-8 encoded character
(Unicode standard, table 3-7: no overlong forms, no surrogates, at most
U+10FFFF). -/
def isChar : List Nat → Bool
  | [b0] => decide (b0 < 0x80)
  | [b0, b1] => decide (0xC2 ≤ b0 ∧ b0 ≤ 0xDF) && isCont b1
  | [b0, b1, b2] =>
    decide ((b0 = 0xE0 ∧ 0xA0 ≤ b1 ∧ b1 ≤ 0xBF) ∨
      (((0xE1 ≤ b0 ∧ b0 ≤ 0xEC) ∨ (0xEE ≤ b0 ∧ b0 ≤ 0xEF)) ∧ 0x80 ≤ b1 ∧ b1 ≤ 0xBF) ∨
      (b0 = 0xED ∧ 0x80 ≤ b1 ∧ b1 ≤ 0x9F)) && isCont b2
  | [b0, b1, b2, b3] =>
    decide ((b0 = 0xF0 ∧ 0x90 ≤ b1 ∧ b1 ≤ 0xBF) ∨
      ((0xF1 ≤ b0 ∧ b0 ≤ 0xF3) ∧ 0x80 ≤ b1 ∧ b1 ≤ 0xBF) ∨
      (b0 = 0xF4 ∧ 0x80 ≤ b1 ∧ b1 ≤ 0x8F)) && isCont b2 && isCont b3
  | _ => false

/-- Valid UTF-8: the bytes are a concatenation of well-formed characters. -/
def validUTF8 : List Nat → Bool
  | [] => true
  | b0 :: r0 =>
    (isChar [b0] && validUTF8 r0) ||
    match r0 with
    | [] => false
    | b1 :: r1 =>
      (isChar [b0, b1] && validUTF8 r1) ||
      match r1 with
      | [] => false
      | b2 :: r2 =>
        (isChar [b0, b1, b2] && validUTF8 r2) ||
        match r2 with
        | [] => false
        | b3 :: r3 => isChar [b0, b1, b2, b3] && validUTF8 r3

/-- Position `k` is a character boundary of `t`: the cut at `k` leaves valid
UTF-8 on both sides. -/
def isBoundary (t : GoString) (k : Nat) : Bool :=
  validUTF8 (t.take k) && validUTF8 (t.drop k)

/-- Go's `utf8.RuneError`. -/
def RuneError : Nat := 0xFFFD

/-- Go's `utf8.RuneStart(b)`: `b&0xC0 != 0x80`. -/
def RuneStart (b : Nat) : Bool := !isCont b

/-- The entry of Go's table `first` for a lead byte `s0 ≥ 0x80`, decoded: the
sequence length and the accepted range of the second byte; length `0` stands for
the entry `xx` (invalid lead byte). -/
def leadInfo (s0 : Nat) : Nat × Nat × Nat :=
  if 0xC2 ≤ s0 ∧ s0 ≤ 0xDF then (2, 0x80, 0xBF)
  else if s0 = 0xE0 then (3, 0xA0, 0xBF)
  else if (0xE1 ≤ s0 ∧ s0 ≤ 0xEC) ∨ (0xEE ≤ s0 ∧ s0 ≤ 0xEF) then (3, 0x80, 0xBF)
  else if s0 = 0xED then (3, 0x80, 0x9F)
  else if s0 = 0xF0 then (4, 0x90, 0xBF)
  else if 0xF1 ≤ s0 ∧ s0 ≤ 0xF3 then (4, 0x80, 0xBF)
  else if s0 = 0xF4 then (4, 0x80, 0x8F)
  else (0, 0, 0)

/-- Go's `utf8.DecodeRuneInString`: the first rune and its width; `(RuneError, 1)`
on an ill-formed sequence, `(RuneError, 0)` on the empty string. -/
def DecodeRuneInString (s : GoString) : Nat × Nat :=
  match s with
  | [] => (RuneError, 0)
  | s0 :: _ =>
    if s0 < 0x80 then (s0, 1)
    else
      let sz := (leadInfo s0).1
      let lo := (leadInfo s0).2.1
      let hi := (leadInfo s0).2.2
      let s1 := s.getD 1 0
      let s2 := s.getD 2 0
      let s3 := s.getD 3 0
      if sz = 0 then (RuneError, 1)
      else if s.length < sz then (RuneError, 1)
      else if s1 < lo ∨ hi < s1 then (RuneError, 1)
      else if sz ≤ 2 then (s0 % 32 * 64 + s1 % 64, 2)
      else if s2 < 0x80 ∨ 0xBF < s2 then (RuneError, 1)
      else if sz ≤ 3 then (s0 % 16 * 4096 + s1 % 64 * 64 + s2 % 64, 3)
      else if s3 < 0x80 ∨ 0xBF < s3 then (RuneError, 1)
      else (s0 % 8 * 262144 + s1 % 64 * 4096 + s2 % 64 * 64 + s3 % 64, 4)

/-- The backward scan of `utf8.DecodeLastRuneInString` for the start of the last
rune: `for start--; start >= lim; start-- { if RuneStart(s[start]) { break } }`
from `start = end-1` with `lim = max(end-4, 0)`, then `if start < 0 { start = 0 }`.
The loop body runs for `end-2`, `end-3`, `end-4` at most. -/
def lastRuneStart (s : GoString) : Nat :=
  if 2 ≤ s.length ∧ RuneStart (s.getD (s.length - 2) 0) then s.length - 2
  else if 3 ≤ s.length ∧ RuneStart (s.getD (s.length - 3) 0) then s.length - 3
  else if 4 ≤ s.length ∧ RuneStart (s.getD (s.length - 4) 0) then s.length - 4
  else s.length - 5

/-- Go's `utf8.DecodeLastRuneInString`: the last rune and its width. -/
def DecodeLastRuneInString (s : GoString) : Nat × Nat :=
  if s.length = 0 then (RuneError, 0)
  else if s.getD (s.length - 1) 0 < 0x80 then (s.getD (s.length - 1) 0, 1)
  else
    let start := lastRuneStart s
    let d := DecodeRuneInString (s.drop start)
    if start + d.2 ≠ s.length then (RuneError, 1) else d

/-- Go's `unicode.IsSpace`. -/
def IsSpace (r : Nat) : Bool :=
  (9 ≤ r ∧ r ≤ 13) ∨ r = 0x20 ∨ r = 0x85 ∨ r = 0xA0 ∨ r = 0x1680 ∨
  (0x2000 ≤ r ∧ r ≤ 0x200A) ∨ r = 0x2028 ∨ r = 0x2029 ∨ r = 0x202F ∨
  r = 0x205F ∨ r = 0x3000

/-- Go's `strings.TrimLeftFunc(s, unicode.IsSpace)`: skip leading runes while
they are white space; `fuel` bounds the number of runes skipped. -/
def trimLeftLoop : Nat → GoString → GoString
  | 0, s => s
  | fuel + 1, s =>
    if s = [] then []
    else if IsSpace (DecodeRuneInString s).1 then trimLeftLoop fuel (s.drop (DecodeRuneInString s).2)
    else s

/-- The loop of `lastIndexFunc(s, unicode.IsSpace, false)`:
`for i := len(s); i > 0; { r, size := DecodeLastRuneInString(s[0:i]); i -= size;
if !IsSpace(r) { return i } }; return -1`. -/
def lastIndexLoop (s : GoString) : Nat → Nat → Int
  | 0, _ => -1
  | fuel + 1, i =>
    if i = 0 then -1
    else if IsSpace (DecodeLastRuneInString (s.take i)).1 then
      lastIndexLoop s fuel (i - (DecodeLastRuneInString (s.take i)).2)
    else ((i - (DecodeLastRuneInString (s.take i)).2 : Nat) : Int)

/-- Go's `strings.TrimRightFunc(s, unicode.IsSpace)`. -/
def TrimRightFunc (s : GoString) : GoString :=
  let i := lastIndexLoop s s.length s.length
  if 0 ≤ i ∧ 0x80 ≤ s.getD i.toNat 0 then
    s.take (i.toNat + (DecodeRuneInString (s.drop i.toNat)).2)
  else s.take (i + 1).toNat

/-- Go's `strings.TrimSpace`: leading and trailing white space, as defined by
Unicode, removed. -/
def TrimSpace (s : GoString) : GoString :=
  TrimRightFunc (trimLeftLoop s.length s)

/-! ### `SoftTrunc` -/

/-- Go's 64-bit `int` arithmetic: the two's-complement value of `x`. -/
def wrapInt (x : Int) : Int :=
  (x + 9223372036854775808) % 18446744073709551616 - 9223372036854775808

/-- The function `SoftTrunc` for a Go `int` `n`; `none` is a slice-bounds fault.
The sum `n+2` wraps as a 64-bit `int`.  The loop
`for len(a) > 0 && a[len(a)-1]>>6 == 2 { a = a[:len(a)-1] }` drops the trailing
continuation bytes. -/
def SoftTrunc (a : GoString) (n : Int) : Option GoString :=
  let a := TrimSpace a
  if (a.length : Int) ≤ wrapInt (n + 2) then some a
  else
    match sliceStr a 0 (wrapInt (n + 2)) with
    | none => none
    | some a =>
      let a := a.rdropWhile isCont
      if a.length = 0 then some a
      else
        match sliceStr a 0 ((a.length : Int) - 1) with
        | none => none
        | some a => some (a ++ str "...")

/-! ### White space trimmed, in the words of the specification -/

/-- The code point encoded by a well-formed character. -/
def codePoint : List Nat → Nat
  | [b0] => b0
  | [b0, b1] => b0 % 32 * 64 + b1 % 64
  | [b0, b1, b2] => b0 % 16 * 4096 + b1 % 64 * 64 + b2 % 64
  | [b0, b1, b2, b3] => b0 % 8 * 262144 + b1 % 64 * 4096 + b2 % 64 * 64 + b3 % 64
  | _ => 0

/-- A well-formed character that is white space as defined by Unicode. -/
def isSpaceChar (w : List Nat) : Bool :=
  isChar w && IsSpace (codePoint w)

/-- The characters of a string, in order; a byte that starts no well-formed
character stands for itself. -/
def splitChars : List Nat → List (List Nat)
  | [] => []
  | b0 :: r0 =>
    let single := [b0] :: splitChars r0
    if isChar [b0] then single
    else
      match r0 with
      | [] => single
      | b1 :: r1 =>
        if isChar [b0, b1] then [b0, b1] :: splitChars r1
        else
          match r1 with
          | [] => single
          | b2 :: r2 =>
            if isChar [b0, b1, b2] then [b0, b1, b2] :: splitChars r2
            else
              match r2 with
              | [] => single
              | b3 :: r3 =>
                if isChar [b0, b1, b2, b3] then [b0, b1, b2, b3] :: splitChars r3
                else single

/-- The string `a` with leading and trailing white space trimmed: its
characters without the leading and the trailing white-space characters. -/
def trimSpec (a : GoString) : GoString :=
  (((splitChars a).dropWhile isSpaceChar).rdropWhile isSpaceChar).flatten

/-- Valid UTF-8 as a derivation: a concatenation of well-formed characters.
Equivalent to `validUTF8` (`validUTF8_iff_Valid`); used for induction. -/
inductive Valid : List Nat → Prop where
  | nil : Valid []
  | cons (c r : List Nat) : isChar c = true → Valid r → Valid (c ++ r)

/-! ## Sample environments -/

/-- A dispatcher in the sense of the specification: it rejects an update whose
`Kimochi` byte lies outside `0..44` and accepts every other request. -/
def strictDal : Dal where
  Do := fun req =>
    if req.any (fun f => f.1 == str "Kimochi" &&
        (match f.2 with
         | FieldValue.byte b => decide (44 < b)
         | _ => false)) then some (str "validation") else none
  FollowUser := fun _ _ _ => none
  BlockUser := fun _ _ _ => none

/-- A signed-in user. -/
def alice : User := ⟨str "alice", str "s,a,b,c,d"⟩

/-- A request context of `alice` whose form has the single field `key`. -/
def formOf (key value : GoString) : Ctx :=
  ⟨some alice, fun name => if name = key then value else [], []⟩

/-- A login of a user `carol` with stored history `D` from hashed IP `h`: IP
check passed, password correct, three spare slots in the grown array. -/
def loginOf (D h : GoString) : LoginCtx :=
  ⟨[], some ⟨str "carol", D⟩, true, str "session", 1577836800, h, 3⟩

/-! ## Theorems -/

/-! ### Template helpers -/

/-- C10 (code defect): on the bare prefix the slice bounds are `[19:18]`
resp. `[12:11]`, so both template helpers fault instead of returning the empty
text between the prefix and the final byte. -/
theorem isCDError_isITError_fault_on_bare_prefix :
    isCDError (str "guard/cooling-down/") = none ∧
    isITError (str "image/throt/") = none := by
  constructor <;> decide

/-- Apart from the bare prefix, `isCDError` returns: `""` without the prefix,
else the bytes between the prefix and the final byte. -/
theorem isCDError_returns (s : GoString) (hs : s ≠ str "guard/cooling-down/") :
    isCDError s =
      if HasPrefix s (str "guard/cooling-down/") then some ((s.take (s.length - 1)).drop 19)
      else some [] := by
  unfold isCDError
  split
  · rename_i hp
    have h19 : (str "guard/cooling-down/").length = 19 := by decide
    have hp2 : s.take 19 = str "guard/cooling-down/" := by
      simpa [HasPrefix, h19] using hp
    have hlen : 20 ≤ s.length := by
      by_contra hlt
      apply hs
      rw [← hp2, List.take_of_length_le (by omega)]
    have e1 : ((s.length : Int) - 1).toNat = s.length - 1 := by omega
    unfold sliceStr
    rw [if_pos ⟨by omega, by omega, by omega⟩, e1]
    rfl
  · rfl

/-- Apart from the bare prefix, `isITError` returns: `""` without the prefix,
else the bytes between the prefix and the final byte. -/
theorem isITError_returns (s : GoString) (hs : s ≠ str "image/throt/") :
    isITError s =
      if HasPrefix s (str "image/throt/") then some ((s.take (s.length - 1)).drop 12)
      else some [] := by
  unfold isITError
  split
  · rename_i hp
    have h12 : (str "image/throt/").length = 12 := by decide
    have hp2 : s.take 12 = str "image/throt/" := by
      simpa [HasPrefix, h12] using hp
    have hlen : 13 ≤ s.length := by
      by_contra hlt
      apply hs
      rw [← hp2, List.take_of_length_le (by omega)]
    have e1 : ((s.length : Int) - 1).toNat = s.length - 1 := by omega
    unfold sliceStr
    rw [if_pos ⟨by omega, by omega, by omega⟩, e1]
    rfl
  · rfl

/-! ### `APIFollowBlock` -/

/-- C4: when the target `to` is the signed-in user's own ID, whatever the other
form fields, the IP check and the data-access layer, `APIFollowBlock` answers
"internal/error" (so not "ok") and makes no data-access call, in particular
neither `dal.FollowUser` nor `dal.BlockUser`. -/
theorem APIFollowBlock_self_target (dal : Dal) (g : Ctx) (u : User)
    (hu : g.user = some u) (hself : g.PostForm (str "to") = u.ID) :
    (APIFollowBlock dal g).body = str "internal/error" ∧
    (APIFollowBlock dal g).body ≠ str "ok" ∧
    (APIFollowBlock dal g).calls = [] ∧
    (∀ a b f, DalCall.followUser a b f ∉ (APIFollowBlock dal g).calls) ∧
    (∀ a b f, DalCall.blockUser a b f ∉ (APIFollowBlock dal g).calls) := by
  have h : APIFollowBlock dal g = ⟨[], str "internal/error"⟩ := by
    simp [APIFollowBlock, hu, hself]
  rw [h]
  refine ⟨rfl, by decide, rfl, ?_, ?_⟩ <;> simp

/-- Witness for C4: `alice` asks to follow `alice`. -/
theorem APIFollowBlock_self_target_witness :
    (APIFollowBlock strictDal (formOf (str "to") (str "alice"))).body = str "internal/error" ∧
    (APIFollowBlock strictDal (formOf (str "to") (str "alice"))).body ≠ str "ok" ∧
    (APIFollowBlock strictDal (formOf (str "to") (str "alice"))).calls = [] ∧
    (∀ a b f, DalCall.followUser a b f ∉
      (APIFollowBlock strictDal (formOf (str "to") (str "alice"))).calls) ∧
    (∀ a b f, DalCall.blockUser a b f ∉
      (APIFollowBlock strictDal (formOf (str "to") (str "alice"))).calls) :=
  APIFollowBlock_self_target strictDal (formOf (str "to") (str "alice")) alice rfl (by decide)

/-! ### `APIUserKimochi` -/

/-- C1 (as stated, refuted): with a dispatcher that rejects out-of-range moods,
the requests `k = 45` and `k = -1` of a signed-in user are not rejected: the
handler issues an update carrying `Kimochi = 25` and answers "ok". -/
theorem APIUserKimochi_out_of_range_not_rejected :
    APIUserKimochi strictDal (formOf (str "k") (str "45")) =
      ⟨[DalCall.doUpdateUser [(str "ID", FieldValue.text (str "alice")),
          (str "Kimochi", FieldValue.byte 25)]], str "ok"⟩ ∧
    APIUserKimochi strictDal (formOf (str "k") (str "-1")) =
      ⟨[DalCall.doUpdateUser [(str "ID", FieldValue.text (str "alice")),
          (str "Kimochi", FieldValue.byte 25)]], str "ok"⟩ := by
  constructor <;> decide

/-- C1 (amended): for a signed-in user the handler always issues exactly one
update; its `Kimochi` byte is the parsed `k` when `0 ≤ k ≤ 44` and `25`
otherwise, and the answer is "ok" exactly when the dispatcher reports no error
(else "internal/error").  The form values "45" and "-1" parse to 45 and -1 and
so send 25; "44" parses to 44 and sends 44. -/
theorem APIUserKimochi_sends_default_when_out_of_range (dal : Dal) (g : Ctx) (u : User)
    (k : Int) (hu : g.user = some u) (hk : Atoi (g.PostForm (str "k")) = k) :
    (∃ sent : Nat,
      ((k < 0 ∨ 44 < k) → sent = 25) ∧
      ((0 ≤ k ∧ k ≤ 44) → (sent : Int) = k) ∧
      (APIUserKimochi dal g).calls =
        [DalCall.doUpdateUser [(str "ID", FieldValue.text u.ID),
          (str "Kimochi", FieldValue.byte sent)]] ∧
      ((APIUserKimochi dal g).body = str "ok" ↔
        dal.Do [(str "ID", FieldValue.text u.ID),
          (str "Kimochi", FieldValue.byte sent)] = none) ∧
      ((APIUserKimochi dal g).body = str "internal/error" ↔
        dal.Do [(str "ID", FieldValue.text u.ID),
          (str "Kimochi", FieldValue.byte sent)] ≠ none)) ∧
    Atoi (str "45") = 45 ∧ Atoi (str "-1") = -1 ∧ Atoi (str "44") = 44 := by
  refine ⟨⟨toByte (if k < 0 ∨ k > 44 then 25 else k), ?_, ?_, ?_, ?_, ?_⟩,
    by decide, by decide, by decide⟩
  · intro h
    have h2 : (k < 0 ∨ k > 44) := by omega
    simp [h2, toByte]
  · intro h
    have h2 : ¬ (k < 0 ∨ k > 44) := by omega
    simp only [h2, if_false, toByte]
    omega
  · simp only [APIUserKimochi, hu, hk]
    cases dal.Do _ <;> rfl
  · simp only [APIUserKimochi, hu, hk]
    cases hd : dal.Do _
    · simp
    · simp only [reduceCtorEq, iff_false]
      decide
  · simp only [APIUserKimochi, hu, hk]
    cases hd : dal.Do _
    · simp only [ne_eq, not_true_eq_false, iff_false]
      decide
    · simp

/-- Witness for C1 (amended): the request `k = 45` of `alice`. -/
theorem APIUserKimochi_sends_default_when_out_of_range_witness :
    (∃ sent : Nat,
      (((45 : Int) < 0 ∨ 44 < (45 : Int)) → sent = 25) ∧
      ((0 ≤ (45 : Int) ∧ (45 : Int) ≤ 44) → (sent : Int) = 45) ∧
      (APIUserKimochi strictDal (formOf (str "k") (str "45"))).calls =
        [DalCall.doUpdateUser [(str "ID", FieldValue.text alice.ID),
          (str "Kimochi", FieldValue.byte sent)]] ∧
      ((APIUserKimochi strictDal (formOf (str "k") (str "45"))).body = str "ok" ↔
        strictDal.Do [(str "ID", FieldValue.text alice.ID),
          (str "Kimochi", FieldValue.byte sent)] = none) ∧
      ((APIUserKimochi strictDal (formOf (str "k") (str "45"))).body = str "internal/error" ↔
        strictDal.Do [(str "ID", FieldValue.text alice.ID),
          (str "Kimochi", FieldValue.byte sent)] ≠ none)) ∧
    Atoi (str "45") = 45 ∧ Atoi (str "-1") = -1 ∧ Atoi (str "44") = 44 :=
  APIUserKimochi_sends_default_when_out_of_range strictDal (formOf (str "k") (str "45")) alice 45
    rfl (by decide)

/-! ### `APILogin`: the recent-IP history -/

theorem getElem?_moveFwd (k : Nat) : ∀ (dst src : Nat) (arr : List GoString),
    dst ≤ src → src + k ≤ arr.length → ∀ t : Nat,
    (moveFwd k dst src arr)[t]? =
      if dst ≤ t ∧ t < dst + k then arr[t - dst + src]? else arr[t]? := by
  induction k with
  | zero =>
    intro dst src arr _ _ t
    have h0 : ¬ (dst ≤ t ∧ t < dst + 0) := by omega
    rw [moveFwd, if_neg h0]
  | succ k ih =>
    intro dst src arr hds hlen t
    have hsrc : src < arr.length := by omega
    rw [moveFwd, ih (dst + 1) (src + 1) _ (by omega) (by simp; omega) t]
    by_cases h1 : dst + 1 ≤ t ∧ t < dst + 1 + k
    · have h2 : dst ≤ t ∧ t < dst + (k + 1) := by omega
      have h3 : t - (dst + 1) + (src + 1) = t - dst + src := by omega
      have h4 : dst ≠ t - dst + src := by omega
      rw [if_pos h1, if_pos h2, h3, List.getElem?_set, if_neg h4]
    · rw [if_neg h1]
      by_cases h5 : t = dst
      · subst h5
        have h2 : t ≤ t ∧ t < t + (k + 1) := by omega
        have h6 : t < arr.length := by omega
        rw [if_pos h2, List.getElem?_set]
        simp [h6, List.getD_eq_getElem?_getD, List.getElem?_eq_getElem hsrc]
      · have h2 : ¬ (dst ≤ t ∧ t < dst + (k + 1)) := by omega
        have h4 : dst ≠ t := fun h => h5 h.symm
        rw [if_neg h2, List.getElem?_set, if_neg h4]

theorem length_moveFwd (k : Nat) : ∀ (dst src : Nat) (arr : List GoString),
    (moveFwd k dst src arr).length = arr.length := by
  induction k with
  | zero => intro _ _ _; rfl
  | succ k ih => intro dst src arr; rw [moveFwd, ih]; simp

/-- The in-place `append(ips[:1], ips[len(ips)-4:]...)` yields the first entry
followed by the last four, whatever lies behind the slice in its array. -/
theorem appendWithin_pinned (L pad : List GoString) (h5 : 5 < L.length) :
    (appendWithin ⟨L ++ pad, L.length⟩ 1 (L.length - 4) 4).toList =
      L.take 1 ++ L.drop (L.length - 4) := by
  have hcap : 1 + 4 ≤ (L ++ pad).length := by simp; omega
  have hle : 1 ≤ L.length - 4 := by omega
  simp only [appendWithin, if_pos hcap, memmove, if_pos hle, StrSlice.toList]
  apply List.ext_getElem?
  intro t
  rw [List.getElem?_take, getElem?_moveFwd 4 1 (L.length - 4) (L ++ pad) hle (by simp; omega) t]
  by_cases ht : t < 1 + 4
  · rw [if_pos ht]
    by_cases ht0 : t = 0
    · subst ht0
      have h0 : 0 < L.length := by omega
      have h1 : ¬ (1 ≤ 0 ∧ 0 < 1 + 4) := by omega
      rw [if_neg h1, List.getElem?_append_left h0,
        List.getElem?_append_left (by simp; omega), List.getElem?_take]
      simp
    · have h1 : 1 ≤ t ∧ t < 1 + 4 := by omega
      have h2 : t - 1 + (L.length - 4) < L.length := by omega
      rw [if_pos h1, List.getElem?_append_left h2,
        List.getElem?_append_right (by simp; omega)]
      simp only [List.length_take, List.getElem?_drop]
      congr 1
      omega
  · rw [if_neg ht]
    symm
    apply List.getElem?_eq_none
    simp
    omega

theorem Split_ne_nil (s : GoString) : Split s ≠ [] := by
  induction s with
  | nil => simp [Split]
  | cons c cs ih =>
    rw [Split]
    split
    · simp
    · split <;> simp

theorem Split_no_comma (s : GoString) : ∀ e ∈ Split s, 44 ∉ e := by
  induction s with
  | nil => simp [Split]
  | cons c cs ih =>
    rw [Split]
    split
    · intro e he
      rcases List.mem_cons.mp he with rfl | he
      · simp
      · exact ih e he
    · rename_i hc
      split
      · intro e he
        simp only [List.mem_singleton] at he
        subst he
        simpa using fun h => hc h.symm
      · rename_i e0 es heq
        intro e he
        rw [heq] at ih
        rcases List.mem_cons.mp he with rfl | he
        · have := ih e0 (List.mem_cons_self _ _)
          simp only [List.mem_cons, not_or]
          exact ⟨fun h => hc h.symm, this⟩
        · exact ih e (List.mem_cons_of_mem _ he)

theorem Split_of_no_comma (e : GoString) (he : 44 ∉ e) : Split e = [e] := by
  induction e with
  | nil => rfl
  | cons c cs ih =>
    simp only [List.mem_cons, not_or] at he
    have hc : ¬ c = 44 := fun h => he.1 h.symm
    rw [Split, if_neg hc, ih he.2]

theorem Split_append_comma (e rest : GoString) (he : 44 ∉ e) :
    Split (e ++ 44 :: rest) = e :: Split rest := by
  induction e with
  | nil => simp [Split]
  | cons c cs ih =>
    simp only [List.mem_cons, not_or] at he
    have hc : ¬ c = 44 := fun h => he.1 h.symm
    rw [List.cons_append, Split, if_neg hc, ih he.2]

/-- Splitting a comma-join of comma-free entries gives the entries back. -/
theorem Split_Join (L : List GoString) (hne : L ≠ []) (hL : ∀ e ∈ L, 44 ∉ e) :
    Split (Join L) = L := by
  induction L with
  | nil => exact absurd rfl hne
  | cons e es ih =>
    cases es with
    | nil => exact Split_of_no_comma e (hL e (List.mem_cons_self _ _))
    | cons e2 es2 =>
      have hJ : Join (e :: e2 :: es2) = e ++ 44 :: Join (e2 :: es2) := rfl
      rw [hJ, Split_append_comma e _ (hL e (List.mem_cons_self _ _)),
        ih (List.cons_ne_nil _ _) (fun x hx => hL x (List.mem_cons_of_mem _ hx))]

/-- The value computed for `u.DataIP`, in terms of the entry list
`L = Split DataIP ++ [h]`. -/
theorem loginDataIP_eq (spare : Nat) (D h : GoString) :
    loginDataIP spare D h =
      if 5 < (Split D ++ [h]).length then
        Join ((Split D ++ [h]).take 1 ++ (Split D ++ [h]).drop ((Split D ++ [h]).length - 4))
      else Join (Split D ++ [h]) := by
  have hlen : (Split D ++ [h]).length = (Split D).length + 1 := by simp
  unfold loginDataIP loginIPs
  simp only [gt_iff_lt, ← hlen]
  by_cases h5 : 5 < (Split D ++ [h]).length
  · rw [if_pos h5, if_pos h5, appendWithin_pinned _ _ h5]
  · rw [if_neg h5, if_neg h5]
    simp only [StrSlice.toList]
    rw [List.take_left]

theorem APILogin_calls (dal : Dal) (g : LoginCtx) (u : User)
    (hip : g.checkIP = []) (hu : g.user = some u) (hpw : g.passwordOK = true) :
    (APILogin dal g).calls = [DalCall.doUpdateUser (loginRequest g u)] := by
  simp only [APILogin, hip, hu, hpw]
  cases dal.Do (loginRequest g u) <;> simp

theorem entries_no_comma (D h : GoString) (hh : 44 ∉ h) :
    ∀ e ∈ Split D ++ [h], 44 ∉ e := by
  intro e he
  rcases List.mem_append.mp he with he | he
  · exact Split_no_comma D e he
  · simp only [List.mem_singleton] at he
    subst he
    exact hh

/-- The entries of the new history: all of `L = Split D ++ [h]` when `L` has at
most five entries, else the first entry and the last four. -/
theorem Split_loginDataIP (spare : Nat) (D h : GoString) (hh : 44 ∉ h) :
    Split (loginDataIP spare D h) =
      if 5 < (Split D ++ [h]).length then
        (Split D ++ [h]).take 1 ++ (Split D ++ [h]).drop ((Split D ++ [h]).length - 4)
      else Split D ++ [h] := by
  rw [loginDataIP_eq]
  have hL := entries_no_comma D h hh
  by_cases h5 : 5 < (Split D ++ [h]).length
  · rw [if_pos h5, if_pos h5]
    apply Split_Join
    · intro hnil
      have := congrArg List.length hnil
      simp at this
    · intro e he
      rcases List.mem_append.mp he with he | he
      · exact hL e (List.mem_of_mem_take he)
      · exact hL e (List.mem_of_mem_drop he)
  · rw [if_neg h5, if_neg h5]
    exact Split_Join _ (by simp) hL

/-- C2: whenever `APILogin` reaches its update (IP check passed, user found,
password correct) and the new hashed IP contains no comma, the `DataIP` value
it writes back has at most 5 comma-separated entries, whatever the stored
history was (also one with more than 5 entries). -/
theorem APILogin_DataIP_at_most_five (dal : Dal) (g : LoginCtx) (u : User)
    (hip : g.checkIP = []) (hu : g.user = some u) (hpw : g.passwordOK = true)
    (hh : 44 ∉ g.hashIP) :
    ∃ v, (APILogin dal g).calls =
        [DalCall.doUpdateUser [(str "ID", FieldValue.text u.ID),
          (str "Session", FieldValue.text g.session),
          (str "TLogin", FieldValue.uint32 g.now),
          (str "DataIP", FieldValue.text v)]] ∧
      (Split v).length ≤ 5 := by
  refine ⟨loginDataIP g.spare u.DataIP g.hashIP, APILogin_calls dal g u hip hu hpw, ?_⟩
  rw [Split_loginDataIP _ _ _ hh]
  split
  · simp only [List.length_append, List.length_take, List.length_drop, List.length_singleton]
    omega
  · omega

/-- Witness for C2: a stored history of seven entries. -/
theorem APILogin_DataIP_at_most_five_witness :
    ∃ v, (APILogin strictDal (loginOf (str "s,a,b,c,d,e,f") (str "g"))).calls =
        [DalCall.doUpdateUser [(str "ID", FieldValue.text (str "carol")),
          (str "Session", FieldValue.text (str "session")),
          (str "TLogin", FieldValue.uint32 1577836800),
          (str "DataIP", FieldValue.text v)]] ∧
      (Split v).length ≤ 5 :=
  APILogin_DataIP_at_most_five strictDal (loginOf (str "s,a,b,c,d,e,f") (str "g"))
    ⟨str "carol", str "s,a,b,c,d,e,f"⟩ rfl rfl rfl (by decide)

/-- C3: whenever `APILogin` reaches its update and the new hashed IP `h` contains
no comma, with `L` the comma-split entries of the stored history followed by
`h`: if `L` has more than 5 entries the new `DataIP` is the comma-join of the
first entry of `L` followed by the last four entries of `L` in their order (the
move inside the shared backing array leaves them intact), otherwise it is the
comma-join of `L`.  In both cases entry 0 of the new history is entry 0 of the
stored one and its last entry is `h`. -/
theorem APILogin_DataIP_pinned_window (dal : Dal) (g : LoginCtx) (u : User)
    (hip : g.checkIP = []) (hu : g.user = some u) (hpw : g.passwordOK = true)
    (hh : 44 ∉ g.hashIP) :
    ∃ v, (APILogin dal g).calls =
        [DalCall.doUpdateUser [(str "ID", FieldValue.text u.ID),
          (str "Session", FieldValue.text g.session),
          (str "TLogin", FieldValue.uint32 g.now),
          (str "DataIP", FieldValue.text v)]] ∧
      (5 < (Split u.DataIP ++ [g.hashIP]).length →
        v = Join ((Split u.DataIP ++ [g.hashIP]).take 1 ++
              (Split u.DataIP ++ [g.hashIP]).drop ((Split u.DataIP ++ [g.hashIP]).length - 4))) ∧
      ((Split u.DataIP ++ [g.hashIP]).length ≤ 5 →
        v = Join (Split u.DataIP ++ [g.hashIP])) ∧
      (Split v)[0]? = (Split u.DataIP)[0]? ∧
      (Split u.DataIP)[0]? ≠ none ∧
      (Split v).getLast? = some g.hashIP := by
  have hpos : 0 < (Split u.DataIP).length :=
    List.length_pos.mpr (Split_ne_nil u.DataIP)
  refine ⟨loginDataIP g.spare u.DataIP g.hashIP, APILogin_calls dal g u hip hu hpw,
    ?_, ?_, ?_, ?_, ?_⟩
  · intro h5
    rw [loginDataIP_eq, if_pos h5]
  · intro h5
    rw [loginDataIP_eq, if_neg (by omega)]
  · rw [Split_loginDataIP _ _ _ hh]
    split
    · rw [List.getElem?_append_left (by simp), List.getElem?_take,
        if_pos (by omega), List.getElem?_append_left hpos]
    · rw [List.getElem?_append_left hpos]
  · rw [List.getElem?_eq_getElem hpos]
    simp
  · rw [Split_loginDataIP _ _ _ hh]
    split
    · rename_i h5
      have hd : (Split u.DataIP ++ [g.hashIP]).drop ((Split u.DataIP ++ [g.hashIP]).length - 4)
          = (Split u.DataIP).drop ((Split u.DataIP).length - 3) ++ [g.hashIP] := by
        simp only [List.length_append, List.length_singleton] at h5 ⊢
        rw [List.drop_append_of_le_length (by omega)]
        congr 2
      rw [hd, ← List.append_assoc, List.getLast?_append]
      simp
    · simp

/-- Witness for C3: a stored history of five entries, so one is evicted. -/
theorem APILogin_DataIP_pinned_window_witness :
    ∃ v, (APILogin strictDal (loginOf (str "s,a,b,c,d") (str "e"))).calls =
        [DalCall.doUpdateUser [(str "ID", FieldValue.text (str "carol")),
          (str "Session", FieldValue.text (str "session")),
          (str "TLogin", FieldValue.uint32 1577836800),
          (str "DataIP", FieldValue.text v)]] ∧
      (5 < (Split (str "s,a,b,c,d") ++ [str "e"]).length →
        v = Join ((Split (str "s,a,b,c,d") ++ [str "e"]).take 1 ++
              (Split (str "s,a,b,c,d") ++ [str "e"]).drop
                ((Split (str "s,a,b,c,d") ++ [str "e"]).length - 4))) ∧
      ((Split (str "s,a,b,c,d") ++ [str "e"]).length ≤ 5 →
        v = Join (Split (str "s,a,b,c,d") ++ [str "e"])) ∧
      (Split v)[0]? = (Split (str "s,a,b,c,d"))[0]? ∧
      (Split (str "s,a,b,c,d"))[0]? ≠ none ∧
      (Split v).getLast? = some (str "e") :=
  APILogin_DataIP_pinned_window strictDal (loginOf (str "s,a,b,c,d") (str "e"))
    ⟨str "carol", str "s,a,b,c,d"⟩ rfl rfl rfl (by decide)

/-! ### `ExtractMentions` -/

theorem sliceStr_one (s : GoString) :
    sliceStr s 1 s.length = if s = [] then none else some (s.drop 1) := by
  unfold sliceStr
  cases s with
  | nil => simp
  | cons c cs =>
    have h : (0 : Int) ≤ 1 ∧ (1 : Int) ≤ ((c :: cs).length : Int) ∧
        ((c :: cs).length : Int) ≤ ((c :: cs).length : Int) := by
      simp only [List.length_cons, Nat.cast_add, Nat.cast_one]
      omega
    rw [if_pos h]
    simp

/-- The statement `res = append(res[:j], res[j+1:]...)` removes element `j`. -/
theorem removeAt_eq_eraseIdx (res : List GoString) (j : Nat) (hj : j < res.length) :
    removeAt res j = res.eraseIdx j := by
  have hcap : j + (res.length - (j + 1)) ≤ res.length := by omega
  have hle : j ≤ j + 1 := by omega
  simp only [removeAt, appendWithin, if_pos hcap, memmove, if_pos hle, StrSlice.toList]
  apply List.ext_getElem?
  intro t
  rw [List.getElem?_take, getElem?_moveFwd _ j (j + 1) res hle (by omega) t,
    List.getElem?_eraseIdx]
  by_cases ht : t < j + (res.length - (j + 1))
  · rw [if_pos ht]
    by_cases htj : t < j
    · rw [if_neg (by omega), if_pos htj]
    · rw [if_pos (by omega), if_neg htj]
      congr 1
      omega
  · rw [if_neg ht, if_neg (by omega)]
    symm
    apply List.getElem?_eq_none
    omega

theorem innerLoop_bounds (ri : GoString) (i : Nat) : ∀ (l : List GoString) (j0 j : Nat),
    innerLoop ri i l j0 = some j → j0 ≤ j ∧ j < j0 + l.length := by
  intro l
  induction l with
  | nil => intro j0 j h; simp [innerLoop] at h
  | cons x rest ih =>
    intro j0 j h
    rw [innerLoop] at h
    split at h
    · simp only [Option.some.injEq] at h
      subst h
      simp
    · have := ih (j0 + 1) j h
      simp only [List.length_cons]
      omega

theorem innerLoop_none_short (ri : GoString) (i : Nat) : ∀ (l : List GoString) (j0 : Nat),
    innerLoop ri i l j0 = none → ∀ x ∈ l, x.length ≤ 18 := by
  intro l
  induction l with
  | nil => intro _ _ x hx; simp at hx
  | cons y rest ih =>
    intro j0 h x hx
    rw [innerLoop] at h
    split at h
    · simp at h
    · rename_i hc
      rcases List.mem_cons.mp hx with rfl | hx
      · have : ¬ 18 < x.length := fun h18 => hc (Or.inr h18)
        omega
      · exact ih (j0 + 1) h x hx

theorem outerLoop_restart_length (k : Nat) : ∀ (i : Nat) (res r : List GoString),
    outerLoop k i res = Pass.restart r → r.length + 1 = res.length := by
  induction k with
  | zero => intro i res r h; simp [outerLoop] at h
  | succ k ih =>
    intro i res r h
    rw [outerLoop] at h
    split at h
    · simp at h
    · split at h
      · rename_i j hj
        have hb := innerLoop_bounds _ i res 0 j hj
        have hlt : j < res.length := by omega
        simp only [Pass.restart.injEq] at h
        rw [← h, removeAt_eq_eraseIdx res j hlt, List.length_eraseIdx_of_lt hlt]
        omega
      · split at h
        · simp at h
        · have := ih _ _ _ h
          simpa using this

theorem againLoop_ne_outOfFuel (fuel : Nat) : ∀ res : List GoString,
    res.length < fuel → againLoop fuel res ≠ Run.outOfFuel := by
  induction fuel with
  | zero => intro res h; omega
  | succ f ih =>
    intro res h
    rw [againLoop]
    split
    · rename_i r hr
      have := outerLoop_restart_length _ _ _ _ hr
      exact ih r (by omega)
    · simp
    · simp

theorem againLoop_succ (fuel : Nat) : ∀ res : List GoString,
    res.length < fuel → againLoop (fuel + 1) res = againLoop fuel res := by
  induction fuel with
  | zero => intro res h; omega
  | succ f ih =>
    intro res h
    rw [againLoop, againLoop]
    split
    · rename_i r hr
      have := outerLoop_restart_length _ _ _ _ hr
      exact ih r (by omega)
    · rfl
    · rfl

/-- The model's fuel never runs out: `ExtractMentions` returns or faults. -/
theorem extractFrom_ne_outOfFuel (res : List GoString) : extractFrom res ≠ Run.outOfFuel :=
  againLoop_ne_outOfFuel _ res (Nat.lt_succ_self _)

/-- One arrival at the label `AGAIN`: run the outer loop, then return, fault or
start over with the shortened slice. -/
theorem extractFrom_unfold (res : List GoString) :
    extractFrom res =
      match outerLoop res.length 0 res with
      | Pass.restart r => extractFrom r
      | Pass.finished r => Run.returned r
      | Pass.fault => Run.fault := by
  unfold extractFrom
  rw [againLoop]
  split
  · rename_i r hr
    have := outerLoop_restart_length _ _ _ _ hr
    rw [← this]
  · rfl
  · rfl

theorem outerLoop_finished_short_of (k : Nat) : ∀ (i : Nat) (res r : List GoString),
    (∀ x ∈ res, x.length ≤ 18) → outerLoop k i res = Pass.finished r →
    ∀ x ∈ r, x.length ≤ 18 := by
  induction k with
  | zero =>
    intro i res r hres h
    simp only [outerLoop, Pass.finished.injEq] at h
    subst h
    exact hres
  | succ k ih =>
    intro i res r hres h
    rw [outerLoop] at h
    split at h
    · simp at h
    · rename_i ri hri
      split at h
      · simp at h
      · split at h
        · simp at h
        · rename_i t ht
          have hmem : ri ∈ res := List.getElem?_mem hri
          rw [sliceStr_one] at ht
          split at ht
          · simp at ht
          · simp only [Option.some.injEq] at ht
            refine ih _ _ _ ?_ h
            intro x hx
            rcases List.mem_or_eq_of_mem_set hx with hx | hx
            · exact hres x hx
            · have := hres ri hmem
              rw [hx, ← ht, List.length_drop]
              omega

theorem outerLoop_finished_short (k i : Nat) (res r : List GoString)
    (h : outerLoop (k + 1) i res = Pass.finished r) : ∀ x ∈ r, x.length ≤ 18 := by
  have hres : ∀ x ∈ res, x.length ≤ 18 := by
    rw [outerLoop] at h
    split at h
    · simp at h
    · split at h
      · simp at h
      · rename_i hin
        exact innerLoop_none_short _ _ _ _ hin
  exact outerLoop_finished_short_of (k + 1) i res r hres h

theorem againLoop_returned_short (fuel : Nat) : ∀ (res r : List GoString),
    againLoop fuel res = Run.returned r → ∀ x ∈ r, x.length ≤ 18 := by
  induction fuel with
  | zero => intro res r h; simp [againLoop] at h
  | succ f ih =>
    intro res r h
    rw [againLoop] at h
    split at h
    · exact ih _ _ h
    · rename_i r1 hr1
      simp only [Run.returned.injEq] at h
      subst h
      cases res with
      | nil =>
        simp only [List.length_nil, outerLoop, Pass.finished.injEq] at hr1
        subst hr1
        intro x hx
        simp at hx
      | cons y ys => exact outerLoop_finished_short _ _ _ _ hr1
    · simp at h

theorem innerLoop_none_ne (ri : GoString) (i : Nat) : ∀ (l : List GoString) (j0 : Nat),
    i < j0 → innerLoop ri i l j0 = none → ∀ x ∈ l, x ≠ ri := by
  intro l
  induction l with
  | nil => intro _ _ _ x hx; simp at hx
  | cons y rest ih =>
    intro j0 hij h x hx
    rw [innerLoop] at h
    split at h
    · simp at h
    · rename_i hc
      rcases List.mem_cons.mp hx with rfl | hx
      · intro hxe
        exact hc (Or.inl ⟨by omega, hxe.symm⟩)
      · exact ih (j0 + 1) (by omega) h x hx

theorem innerLoop_some_spec (ri : GoString) (i : Nat) : ∀ (l : List GoString) (j0 j : Nat),
    i < j0 → innerLoop ri i l j0 = some j →
    ∃ m, ∃ hm : m < l.length, j = j0 + m ∧ (l[m] = ri ∨ 18 < l[m].length) := by
  intro l
  induction l with
  | nil => intro j0 j _ h; simp [innerLoop] at h
  | cons y rest ih =>
    intro j0 j hij h
    rw [innerLoop] at h
    split at h
    · rename_i hc
      simp only [Option.some.injEq] at h
      refine ⟨0, by simp, by omega, ?_⟩
      rcases hc with hc | hc
      · exact Or.inl hc.2.symm
      · exact Or.inr hc
    · obtain ⟨m, hm, hj, hspec⟩ := ih (j0 + 1) j (by omega) h
      exact ⟨m + 1, by simpa using hm, by omega, by simpa using hspec⟩

theorem filter_eraseIdx_of_not (p : GoString → Bool) : ∀ (l : List GoString) (m : Nat)
    (hm : m < l.length), p l[m] = false → (l.eraseIdx m).filter p = l.filter p := by
  intro l
  induction l with
  | nil => intro m hm; simp at hm
  | cons y rest ih =>
    intro m hm hp
    cases m with
    | zero =>
      simp only [List.getElem_cons_zero] at hp
      simp [List.filter_cons, hp]
    | succ m =>
      simp only [List.getElem_cons_succ] at hp
      simp only [List.eraseIdx_cons_succ, List.filter_cons]
      rw [ih m (by simpa using hm) hp]

theorem pruned_cons_long (r0 : GoString) (t : List GoString) (h : 18 < r0.length) :
    pruned (r0 :: t) = pruned t := by
  have : decide (r0.length ≤ 18) = false := by simp; omega
  simp [pruned, List.filter_cons, this]

theorem pruned_cons_short (r0 : GoString) (t : List GoString) (h : ¬ 18 < r0.length) :
    pruned (r0 :: t) =
      r0 :: t.filter (fun y => decide (y ≠ r0) && decide (y.length ≤ 18)) := by
  have : decide (r0.length ≤ 18) = true := by simp; omega
  simp [pruned, List.filter_cons, this, List.filter_filter]

/-- Up to the first `res[i] = res[i][1:]` the loop only removes matches: the long
ones and the later copies of the first short one. -/
theorem extractFrom_pruned (n : Nat) : ∀ ms : List GoString, ms.length ≤ n →
    extractFrom ms = extractFrom (pruned ms) := by
  induction n with
  | zero =>
    intro ms h
    have : ms = [] := List.length_eq_zero.mp (by omega)
    subst this
    rfl
  | succ n ih =>
    intro ms h
    cases ms with
    | nil => rfl
    | cons r0 t =>
      simp only [List.length_cons] at h
      by_cases hlong : 18 < r0.length
      · rw [pruned_cons_long r0 t hlong, ← ih t (by omega), extractFrom_unfold (r0 :: t)]
        have hin : innerLoop r0 0 (r0 :: t) 0 = some 0 := by
          rw [innerLoop, if_pos (Or.inr hlong)]
        have hrm : removeAt (r0 :: t) 0 = t := by
          rw [removeAt_eq_eraseIdx _ _ (by simp)]
          rfl
        simp only [List.length_cons, outerLoop, List.getElem?_cons_zero, hin, hrm]
      · have hin0 : innerLoop r0 0 (r0 :: t) 0 = innerLoop r0 0 t 1 := by
          rw [innerLoop, if_neg (by simp [hlong])]
        rw [pruned_cons_short r0 t hlong]
        cases hin : innerLoop r0 0 t 1 with
        | none =>
          have h1 := innerLoop_none_short r0 0 t 1 hin
          have h2 := innerLoop_none_ne r0 0 t 1 (by omega) hin
          have : t.filter (fun y => decide (y ≠ r0) && decide (y.length ≤ 18)) = t := by
            apply List.filter_eq_self.mpr
            intro x hx
            simp [h1 x hx, h2 x hx]
          rw [this]
        | some j =>
          obtain ⟨m, hm, hj, hspec⟩ := innerLoop_some_spec r0 0 t 1 j (by omega) hin
          have hrm : removeAt (r0 :: t) j = r0 :: t.eraseIdx m := by
            rw [removeAt_eq_eraseIdx _ _ (by simp; omega), hj, Nat.add_comm]
            rfl
          have hstep : extractFrom (r0 :: t) = extractFrom (r0 :: t.eraseIdx m) := by
            rw [extractFrom_unfold (r0 :: t)]
            simp only [List.length_cons, outerLoop, List.getElem?_cons_zero, hin0, hin, hrm]
          have hlen : (r0 :: t.eraseIdx m).length ≤ n := by
            simp only [List.length_cons, List.length_eraseIdx_of_lt hm]
            omega
          rw [hstep, ih _ hlen, pruned_cons_short r0 _ hlong, filter_eraseIdx_of_not _ t m hm]
          rcases hspec with hs | hs
          · simp [hs]
          · have : decide (t[m].length ≤ 18) = false := by simp; omega
            simp [this]

/-- Matches longer than 18 bytes have no influence on the result. -/
theorem extractFrom_filter_short (ms : List GoString) :
    extractFrom ms = extractFrom (ms.filter (fun x => decide (x.length ≤ 18))) := by
  rw [extractFrom_pruned _ ms (le_refl _),
    extractFrom_pruned _ (ms.filter (fun x => decide (x.length ≤ 18))) (le_refl _)]
  congr 1
  simp [pruned, List.filter_filter]

theorem outerLoop_invariant (P : GoString → Prop) (hP : ∀ x, P x → P (x.drop 1)) (k : Nat) :
    ∀ (i : Nat) (res r : List GoString), (∀ x ∈ res, P x) →
    (outerLoop k i res = Pass.finished r ∨ outerLoop k i res = Pass.restart r) →
    ∀ x ∈ r, P x := by
  induction k with
  | zero =>
    intro i res r hres h
    simp only [outerLoop, Pass.finished.injEq, reduceCtorEq, or_false] at h
    subst h
    exact hres
  | succ k ih =>
    intro i res r hres h
    rw [outerLoop] at h
    split at h
    · simp at h
    · rename_i ri hri
      split at h
      · rename_i j hj
        have hb := innerLoop_bounds _ i res 0 j hj
        simp only [reduceCtorEq, Pass.restart.injEq, false_or] at h
        rw [← h, removeAt_eq_eraseIdx res j (by omega)]
        intro x hx
        exact hres x (List.mem_of_mem_eraseIdx hx)
      · split at h
        · simp at h
        · rename_i t ht
          rw [sliceStr_one] at ht
          split at ht
          · simp at ht
          · simp only [Option.some.injEq] at ht
            refine ih _ _ _ ?_ h
            intro x hx
            rcases List.mem_or_eq_of_mem_set hx with hx | hx
            · exact hres x hx
            · rw [hx, ← ht]
              exact hP ri (hres ri (List.getElem?_mem hri))

theorem againLoop_invariant (P : GoString → Prop) (hP : ∀ x, P x → P (x.drop 1))
    (fuel : Nat) : ∀ (res r : List GoString), (∀ x ∈ res, P x) →
    againLoop fuel res = Run.returned r → ∀ x ∈ r, P x := by
  induction fuel with
  | zero => intro res r _ h; simp [againLoop] at h
  | succ f ih =>
    intro res r hres h
    rw [againLoop] at h
    split at h
    · rename_i r1 hr1
      exact ih _ _ (outerLoop_invariant P hP _ _ _ _ hres (Or.inr hr1)) h
    · rename_i r1 hr1
      simp only [Run.returned.injEq] at h
      subst h
      exact outerLoop_invariant P hP _ _ _ _ hres (Or.inl hr1)
    · simp at h

/-- C7: whenever `ExtractMentions` returns, every returned element has at most
18 bytes, and the matches longer than 18 bytes (the `@` included) contribute
nothing: the result is the one obtained from the matches of at most 18 bytes
alone, and every returned element is a suffix of such a match. -/
theorem ExtractMentions_length_cap (maxMentions : Int) (input : GoString)
    (r : List GoString) (h : ExtractMentions maxMentions input = Run.returned r) :
    (∀ x ∈ r, x.length ≤ 18) ∧
    extractFrom ((FindAllString input maxMentions).filter (fun m => decide (m.length ≤ 18)))
      = Run.returned r ∧
    (∀ x ∈ r, ∃ m ∈ FindAllString input maxMentions, m.length ≤ 18 ∧ x <:+ m) := by
  have hf : extractFrom ((FindAllString input maxMentions).filter
      (fun m => decide (m.length ≤ 18))) = Run.returned r := by
    rw [← extractFrom_filter_short]
    exact h
  refine ⟨againLoop_returned_short _ _ _ h, hf, ?_⟩
  refine againLoop_invariant
    (fun x => ∃ m ∈ FindAllString input maxMentions, m.length ≤ 18 ∧ x <:+ m) ?_ _ _ _ ?_ hf
  · rintro x ⟨m, hm, hlen, hsuf⟩
    exact ⟨m, hm, hlen, (List.drop_suffix 1 x).trans hsuf⟩
  · intro x hx
    simp only [List.mem_filter, decide_eq_true_eq] at hx
    exact ⟨x, hx.1, hx.2, List.suffix_refl x⟩

/-- Witness for C7: a mention of 19 bytes between two short ones. -/
theorem ExtractMentions_length_cap_witness :
    (∀ x ∈ [str "ann", str "bob"], x.length ≤ 18) ∧
    extractFrom ((FindAllString (str "@ann @abcdefghijklmnopqr @bob") 5).filter
      (fun m => decide (m.length ≤ 18))) = Run.returned [str "ann", str "bob"] ∧
    (∀ x ∈ [str "ann", str "bob"],
      ∃ m ∈ FindAllString (str "@ann @abcdefghijklmnopqr @bob") 5, m.length ≤ 18 ∧ x <:+ m) :=
  ExtractMentions_length_cap 5 (str "@ann @abcdefghijklmnopqr @bob") [str "ann", str "bob"]
    (by decide)

/-- C5 (code defect): the three matches `@xa`, `@a`, `@a` yield the list
`a`, `a`, which holds the same name twice. -/
theorem ExtractMentions_returns_duplicate :
    FindAllString (str "@xa @a @a") 3 = [str "@xa", str "@a", str "@a"] ∧
    ExtractMentions 3 (str "@xa @a @a") = Run.returned [str "a", str "a"] ∧
    ExtractMentions (-1) (str "@xa @a @a") = Run.returned [str "a", str "a"] ∧
    ¬ [str "a", str "a"].Nodup := by
  refine ⟨by decide, by decide, by decide, by decide⟩

/-- C6 (code defect): the matches `@abc`, `@de`, `@de` yield `bc`, `de`; the
name `abc` has lost its first letter, so the result is no subsequence of the
matches with their `@` removed. -/
theorem ExtractMentions_strips_twice :
    FindAllString (str "@abc @de @de") 3 = [str "@abc", str "@de", str "@de"] ∧
    ExtractMentions 3 (str "@abc @de @de") = Run.returned [str "bc", str "de"] ∧
    ExtractMentions (-1) (str "@abc @de @de") = Run.returned [str "bc", str "de"] ∧
    ¬ List.Sublist [str "bc", str "de"]
        ([str "@abc", str "@de", str "@de"].map (fun m => m.drop 1)) := by
  refine ⟨by decide, by decide, by decide, by decide⟩

/-- C8 (code defect): on the matches `@a`, `@b`, `@b`, `@b` the element `a` is
stripped in each of three passes; the third `res[0][1:]` is taken of the empty
string and faults. -/
theorem ExtractMentions_faults :
    FindAllString (str "@a @b @b @b") 4 = [str "@a", str "@b", str "@b", str "@b"] ∧
    ExtractMentions 4 (str "@a @b @b @b") = Run.fault ∧
    ExtractMentions (-1) (str "@a @b @b @b") = Run.fault := by
  refine ⟨by decide, by decide, by decide⟩

/-! ### UTF-8 -/

theorem isCont_iff (b : Nat) : isCont b = true ↔ 128 ≤ b ∧ b < 192 := by
  simp only [isCont, Nat.shiftRight_eq_div_pow, beq_iff_eq]
  omega

theorem isCont_eq_false_iff (b : Nat) : isCont b = false ↔ b < 128 ∨ 192 ≤ b := by
  rw [← Bool.not_eq_true, isCont_iff]
  omega

/-- The shape of a well-formed character: a non-continuation byte followed by
at most three continuation bytes. -/
theorem isChar_shape (c : List Nat) (hc : isChar c = true) :
    ∃ b rest, c = b :: rest ∧ isCont b = false ∧ (∀ x ∈ rest, isCont x = true) ∧
      rest.length ≤ 3 ∧ (b < 128 → rest = []) ∧ (128 ≤ b → rest ≠ []) := by
  match c, hc with
  | [], hc => simp [isChar] at hc
  | [b0], hc =>
    simp only [isChar, decide_eq_true_eq] at hc
    refine ⟨b0, [], rfl, ?_, by simp, by simp, by simp, ?_⟩
    · rw [isCont_eq_false_iff]; omega
    · intro h; omega
  | [b0, b1], hc =>
    simp only [isChar, Bool.and_eq_true, decide_eq_true_eq] at hc
    refine ⟨b0, [b1], rfl, ?_, by simpa using hc.2, by simp, ?_, by simp⟩
    · rw [isCont_eq_false_iff]; omega
    · intro h; omega
  | [b0, b1, b2], hc =>
    simp only [isChar, Bool.and_eq_true, decide_eq_true_eq] at hc
    have h1 : isCont b1 = true := by rw [isCont_iff]; omega
    refine ⟨b0, [b1, b2], rfl, ?_, by simp [h1, hc.2], by simp, ?_, by simp⟩
    · rw [isCont_eq_false_iff]; omega
    · intro h; omega
  | [b0, b1, b2, b3], hc =>
    simp only [isChar, Bool.and_eq_true, decide_eq_true_eq] at hc
    have h1 : isCont b1 = true := by rw [isCont_iff]; omega
    refine ⟨b0, [b1, b2, b3], rfl, ?_, by simp [h1, hc.1.2, hc.2], by simp, ?_, by simp⟩
    · rw [isCont_eq_false_iff]; omega
    · intro h; omega
  | _ :: _ :: _ :: _ :: _ :: _, hc => simp [isChar] at hc

theorem validUTF8_of_Valid (x : List Nat) (h : Valid x) : validUTF8 x = true := by
  induction h with
  | nil => rfl
  | cons c r hc _ ih =>
    match c, hc with
    | [], hc => simp [isChar] at hc
    | [b0], hc =>
      show validUTF8 (b0 :: r) = true
      unfold validUTF8
      simp [hc, ih]
    | [b0, b1], hc =>
      show validUTF8 (b0 :: b1 :: r) = true
      unfold validUTF8
      simp [hc, ih]
    | [b0, b1, b2], hc =>
      show validUTF8 (b0 :: b1 :: b2 :: r) = true
      unfold validUTF8
      simp [hc, ih]
    | [b0, b1, b2, b3], hc =>
      show validUTF8 (b0 :: b1 :: b2 :: b3 :: r) = true
      unfold validUTF8
      simp [hc, ih]
    | _ :: _ :: _ :: _ :: _ :: _, hc => simp [isChar] at hc

theorem Valid_of_validUTF8 (n : Nat) : ∀ x : List Nat, x.length ≤ n →
    validUTF8 x = true → Valid x := by
  induction n with
  | zero =>
    intro x hx _
    have : x = [] := List.length_eq_zero.mp (by omega)
    subst this
    exact Valid.nil
  | succ n ih =>
    intro x hx h
    cases x with
    | nil => exact Valid.nil
    | cons b0 r0 =>
      simp only [List.length_cons] at hx
      unfold validUTF8 at h
      simp only [Bool.or_eq_true, Bool.and_eq_true] at h
      rcases h with h | h
      · exact Valid.cons [b0] r0 h.1 (ih r0 (by omega) h.2)
      · cases r0 with
        | nil => simp at h
        | cons b1 r1 =>
          simp only [List.length_cons] at hx
          simp only [Bool.or_eq_true, Bool.and_eq_true] at h
          rcases h with h | h
          · exact Valid.cons [b0, b1] r1 h.1 (ih r1 (by omega) h.2)
          · cases r1 with
            | nil => simp at h
            | cons b2 r2 =>
              simp only [List.length_cons] at hx
              simp only [Bool.or_eq_true, Bool.and_eq_true] at h
              rcases h with h | h
              · exact Valid.cons [b0, b1, b2] r2 h.1 (ih r2 (by omega) h.2)
              · cases r2 with
                | nil => simp at h
                | cons b3 r3 =>
                  simp only [List.length_cons] at hx
                  simp only [Bool.and_eq_true] at h
                  exact Valid.cons [b0, b1, b2, b3] r3 h.1 (ih r3 (by omega) h.2)

theorem validUTF8_iff_Valid (x : List Nat) : validUTF8 x = true ↔ Valid x :=
  ⟨Valid_of_validUTF8 x.length x (le_refl _), validUTF8_of_Valid x⟩

theorem Valid_head (b : Nat) (r : List Nat) (h : Valid (b :: r)) : isCont b = false := by
  generalize hx : b :: r = x at h
  cases h with
  | nil => simp at hx
  | cons c r1 hc _ =>
    obtain ⟨b1, rest, rfl, hb1, _⟩ := isChar_shape c hc
    simp only [List.cons_append, List.cons.injEq] at hx
    rw [hx.1]
    exact hb1

theorem Valid_append (x y : List Nat) (hx : Valid x) (hy : Valid y) : Valid (x ++ y) := by
  induction hx with
  | nil => exact hy
  | cons c r hc _ ih =>
    rw [List.append_assoc]
    exact Valid.cons c (r ++ y) hc ih

/-- A cut in front of a non-continuation byte (or at the end) splits valid
UTF-8 into valid UTF-8. -/
theorem Valid_cut (x : List Nat) (h : Valid x) : ∀ k : Nat,
    isCont (x.getD k 0) = false → Valid (x.take k) ∧ Valid (x.drop k) := by
  induction h with
  | nil => intro k _; simp only [List.take_nil, List.drop_nil]; exact ⟨Valid.nil, Valid.nil⟩
  | cons w r hc hr ih =>
    intro k hk
    obtain ⟨b, rest, hceq, _, hrest, _⟩ := isChar_shape w hc
    by_cases hk0 : k = 0
    · subst hk0
      exact ⟨Valid.nil, Valid.cons w r hc hr⟩
    · by_cases hkc : k < w.length
      · exfalso
        rw [List.getD_append _ _ _ _ hkc, List.getD_eq_getElem _ _ hkc] at hk
        have hmem : w[k] ∈ rest := by
          subst hceq
          obtain ⟨k1, rfl⟩ := Nat.exists_eq_succ_of_ne_zero hk0
          simp only [List.getElem_cons_succ]
          exact List.getElem_mem _
        rw [hrest _ hmem] at hk
        exact Bool.noConfusion hk
      · have hge : w.length ≤ k := by omega
        rw [List.getD_append_right _ _ _ _ hge] at hk
        obtain ⟨h1, h2⟩ := ih (k - w.length) hk
        rw [List.take_append_eq_append_take, List.drop_append_eq_append_drop,
          List.take_of_length_le hge, List.drop_of_length_le hge, List.nil_append]
        exact ⟨Valid.cons w _ hc h1, h2⟩

/-- A non-empty valid string ends with a well-formed character. -/
theorem Valid_last (x : List Nat) (h : Valid x) (hne : x ≠ []) :
    ∃ q c, x = q ++ c ∧ Valid q ∧ isChar c = true := by
  induction h with
  | nil => exact absurd rfl hne
  | cons c r hc hr ih =>
    by_cases hr0 : r = []
    · subst hr0
      exact ⟨[], c, by simp, Valid.nil, hc⟩
    · obtain ⟨q, c1, hq, hvq, hc1⟩ := ih hr0
      refine ⟨c ++ q, c1, ?_, Valid.cons c q hc hvq, hc1⟩
      rw [hq, List.append_assoc]

theorem rdropWhile_append_rtakeWhile {α : Type} (p : α → Bool) (l : List α) :
    l.rdropWhile p ++ l.rtakeWhile p = l := by
  simp only [List.rdropWhile, List.rtakeWhile]
  rw [← List.reverse_append, List.takeWhile_append_dropWhile, List.reverse_reverse]

/-- On a string that starts with a well-formed character, `DecodeRuneInString`
yields the code point and the width of that character. -/
theorem DecodeRuneInString_eq (w r : List Nat) (hc : isChar w = true) :
    DecodeRuneInString (w ++ r) = (codePoint w, w.length) := by
  match w, hc with
  | [], hc => simp [isChar] at hc
  | [b0], hc =>
    simp only [isChar, decide_eq_true_eq] at hc
    simp [DecodeRuneInString, hc, codePoint]
  | [b0, b1], hc =>
    simp only [isChar, Bool.and_eq_true, decide_eq_true_eq, isCont_iff] at hc
    have h0 : ¬ b0 < 128 := by omega
    have hl : leadInfo b0 = (2, 0x80, 0xBF) := by simp [leadInfo, hc.1]
    have h1 : ¬ (b1 < 128 ∨ 191 < b1) := by omega
    simp [DecodeRuneInString, h0, hl, h1, codePoint]
  | [b0, b1, b2], hc =>
    simp only [isChar, Bool.and_eq_true, decide_eq_true_eq, isCont_iff] at hc
    have h0 : ¬ b0 < 128 := by omega
    have h2 : ¬ (b2 < 128 ∨ 191 < b2) := by omega
    have hl : (leadInfo b0).1 = 3 ∧ ¬ (b1 < (leadInfo b0).2.1 ∨ (leadInfo b0).2.2 < b1) := by
      unfold leadInfo
      split_ifs <;> simp <;> omega
    simp [DecodeRuneInString, h0, hl.1, hl.2, h2, codePoint]
  | [b0, b1, b2, b3], hc =>
    simp only [isChar, Bool.and_eq_true, decide_eq_true_eq, isCont_iff] at hc
    have h0 : ¬ b0 < 128 := by omega
    have h2 : ¬ (b2 < 128 ∨ 191 < b2) := by omega
    have h3 : ¬ (b3 < 128 ∨ 191 < b3) := by omega
    have hl : (leadInfo b0).1 = 4 ∧ ¬ (b1 < (leadInfo b0).2.1 ∨ (leadInfo b0).2.2 < b1) := by
      unfold leadInfo
      split_ifs <;> simp <;> omega
    simp [DecodeRuneInString, h0, hl.1, hl.2, h2, h3, codePoint]
  | _ :: _ :: _ :: _ :: _ :: _, hc => simp [isChar] at hc

theorem DecodeRuneInString_width (w r : List Nat) (hc : isChar w = true) :
    (DecodeRuneInString (w ++ r)).2 = w.length := by
  rw [DecodeRuneInString_eq w r hc]

theorem getD_append_add (q w : List Nat) (k : Nat) :
    (q ++ w).getD (q.length + k) 0 = w.getD k 0 := by
  rw [List.getD_append_right _ _ _ _ (by omega)]
  congr 1
  omega

theorem lastRuneStart_char (q w : List Nat) (hc : isChar w = true) (h2 : 2 ≤ w.length) :
    lastRuneStart (q ++ w) = q.length := by
  obtain ⟨b, rest, hw, hb, hrest, _⟩ := isChar_shape w hc
  subst hw
  match rest, hrest, hc, h2 with
  | [], _, _, h2 => simp at h2
  | [b1], _, _, _ =>
    have e2 : (q ++ [b, b1]).length - 2 = q.length + 0 := by simp
    have hl : 2 ≤ (q ++ [b, b1]).length := by simp
    unfold lastRuneStart
    rw [e2, getD_append_add, if_pos ⟨hl, by simp [RuneStart, hb]⟩]
    rfl
  | [b1, b2], hrest, _, _ =>
    have e2 : (q ++ [b, b1, b2]).length - 2 = q.length + 1 := by simp
    have e3 : (q ++ [b, b1, b2]).length - 3 = q.length + 0 := by simp
    have hl : 3 ≤ (q ++ [b, b1, b2]).length := by simp
    have hb1 : isCont b1 = true := hrest b1 (by simp)
    unfold lastRuneStart
    rw [e2, e3, getD_append_add, getD_append_add, if_neg (by simp [RuneStart, hb1]),
      if_pos ⟨hl, by simp [RuneStart, hb]⟩]
    rfl
  | [b1, b2, b3], hrest, _, _ =>
    have e2 : (q ++ [b, b1, b2, b3]).length - 2 = q.length + 2 := by simp
    have e3 : (q ++ [b, b1, b2, b3]).length - 3 = q.length + 1 := by simp
    have e4 : (q ++ [b, b1, b2, b3]).length - 4 = q.length + 0 := by simp
    have hl : 4 ≤ (q ++ [b, b1, b2, b3]).length := by simp
    have hb1 : isCont b1 = true := hrest b1 (by simp)
    have hb2 : isCont b2 = true := hrest b2 (by simp)
    unfold lastRuneStart
    rw [e2, e3, e4, getD_append_add, getD_append_add, getD_append_add,
      if_neg (by simp [RuneStart, hb2]), if_neg (by simp [RuneStart, hb1]),
      if_pos ⟨hl, by simp [RuneStart, hb]⟩]
    rfl
  | _ :: _ :: _ :: _ :: _, _, hc, _ => simp [isChar] at hc

/-- On a string that ends with a well-formed character, `DecodeLastRuneInString`
decodes that character. -/
theorem DecodeLastRuneInString_char (q w : List Nat) (hc : isChar w = true) :
    DecodeLastRuneInString (q ++ w) = DecodeRuneInString w := by
  obtain ⟨b, rest, hw, hb, hrest, hlen3, hascii, hmulti⟩ := isChar_shape w hc
  have hwidth : (DecodeRuneInString w).2 = w.length := by
    have := DecodeRuneInString_width w [] hc
    rwa [List.append_nil] at this
  by_cases hb128 : b < 128
  · have hr : rest = [] := hascii hb128
    subst hw hr
    have e1 : (q ++ [b]).length - 1 = q.length + 0 := by simp
    unfold DecodeLastRuneInString
    rw [e1, getD_append_add, if_neg (by simp)]
    simp [hb128, DecodeRuneInString]
  · have hr : rest ≠ [] := hmulti (by omega)
    have h2 : 2 ≤ w.length := by
      subst hw
      cases rest with
      | nil => exact absurd rfl hr
      | cons _ _ => simp
    have hlastmem : (q ++ w).getD ((q ++ w).length - 1) 0 ∈ rest := by
      have e1 : (q ++ w).length - 1 = q.length + (w.length - 1) := by
        simp only [List.length_append]; omega
      rw [e1, getD_append_add, List.getD_eq_getElem _ _ (by omega)]
      subst hw
      have e2 : (b :: rest).length - 1 = (rest.length - 1) + 1 := by
        simp only [List.length_cons] at h2 ⊢; omega
      simp only [e2, List.getElem_cons_succ]
      exact List.getElem_mem _
    have hlast : ¬ (q ++ w).getD ((q ++ w).length - 1) 0 < 128 := by
      have := (isCont_iff _).mp (hrest _ hlastmem)
      omega
    unfold DecodeLastRuneInString
    rw [if_neg (by simp only [List.length_append]; omega), if_neg hlast]
    simp only [lastRuneStart_char q w hc h2, List.drop_left, hwidth, List.length_append,
      ne_eq, not_true_eq_false, if_false]

/-! ### `strings.TrimSpace` keeps valid UTF-8 valid -/

theorem Valid_first (x : List Nat) (h : Valid x) (hne : x ≠ []) :
    ∃ w r, x = w ++ r ∧ isChar w = true ∧ Valid r := by
  cases h with
  | nil => exact absurd rfl hne
  | cons w r hc hr => exact ⟨w, r, rfl, hc, hr⟩

theorem trimLeftLoop_Valid (fuel : Nat) : ∀ s : List Nat, Valid s →
    Valid (trimLeftLoop fuel s) := by
  induction fuel with
  | zero => intro s hs; exact hs
  | succ f ih =>
    intro s hs
    rw [trimLeftLoop]
    split
    · exact Valid.nil
    · rename_i hne
      split
      · obtain ⟨w, r, hx, hc, hr⟩ := Valid_first s hs hne
        apply ih
        rw [hx, DecodeRuneInString_width w r hc, List.drop_left]
        exact hr
      · exact hs

theorem lastIndexLoop_spec (s : List Nat) (fuel : Nat) : ∀ i : Nat, i ≤ s.length →
    Valid (s.take i) →
    lastIndexLoop s fuel i = -1 ∨
    ∃ (j : Nat) (w rest : List Nat), lastIndexLoop s fuel i = (j : Int) ∧
      isChar w = true ∧ s.drop j = w ++ rest ∧ Valid (s.take (j + w.length)) := by
  induction fuel with
  | zero => intro i _ _; exact Or.inl rfl
  | succ f ih =>
    intro i hi hv
    rw [lastIndexLoop]
    split
    · exact Or.inl rfl
    · rename_i hi0
      have hne : s.take i ≠ [] := by
        intro h
        have := congrArg List.length h
        simp only [List.length_take, List.length_nil] at this
        omega
      obtain ⟨q, w, hqw, hvq, hc⟩ := Valid_last _ hv hne
      have hw : (DecodeRuneInString w).2 = w.length := by
        have := DecodeRuneInString_width w [] hc
        rwa [List.append_nil] at this
      have hlen : q.length + w.length = i := by
        have := congrArg List.length hqw
        simp only [List.length_take, List.length_append] at this
        omega
      have hsub : i - w.length = q.length := by omega
      have htq : s.take q.length = q := by
        have : (s.take i).take q.length = q := by rw [hqw, List.take_left]
        rwa [List.take_take, Nat.min_eq_left (by omega)] at this
      rw [hqw, DecodeLastRuneInString_char q w hc, hw, hsub]
      split
      · exact ih q.length (by omega) (by rw [htq]; exact hvq)
      · refine Or.inr ⟨q.length, w, s.drop i, rfl, hc, ?_, ?_⟩
        · have h1 : s = (q ++ w) ++ s.drop i := by rw [← hqw, List.take_append_drop]
          conv_lhs => rw [h1, List.append_assoc, List.drop_left]
        · rw [hlen]
          exact hv

theorem TrimRightFunc_Valid (s : List Nat) (hs : Valid s) : Valid (TrimRightFunc s) := by
  unfold TrimRightFunc
  rcases lastIndexLoop_spec s s.length s.length (le_refl _)
    (by rw [List.take_length]; exact hs) with h | ⟨j, w, rest, hj, hc, hdrop, hv⟩
  · rw [h]
    simp only [show ¬ ((0 : Int) ≤ -1 ∧ 0x80 ≤ s.getD (-1 : Int).toNat 0) by omega, if_false]
    exact Valid.nil
  · rw [hj]
    obtain ⟨b, tl, hw, _, _, _, hascii, _⟩ := isChar_shape w hc
    have hget : s.getD j 0 = b := by
      have : (s.drop j).getD 0 0 = b := by rw [hdrop, hw]; rfl
      simpa [List.getD_eq_getElem?_getD, List.getElem?_drop] using this
    simp only [Int.toNat_ofNat, hget, Int.natCast_nonneg, true_and]
    split
    · rw [hdrop, DecodeRuneInString_width w rest hc]
      exact hv
    · rename_i hb
      have htl : tl = [] := hascii (by omega)
      have h1 : w.length = 1 := by rw [hw, htl]; rfl
      rw [h1] at hv
      have : ((j : Int) + 1).toNat = j + 1 := by omega
      rw [this]
      exact hv

/-- Trimming valid UTF-8 gives valid UTF-8. -/
theorem TrimSpace_Valid (s : List Nat) (hs : Valid s) : Valid (TrimSpace s) :=
  TrimRightFunc_Valid _ (trimLeftLoop_Valid _ s hs)

theorem DecodeRuneInString_width_pos (s : List Nat) (hs : s ≠ []) :
    1 ≤ (DecodeRuneInString s).2 := by
  cases s with
  | nil => exact absurd rfl hs
  | cons s0 r =>
    simp only [DecodeRuneInString]
    split_ifs <;> simp

theorem lastRuneStart_lt (s : List Nat) (hs : s ≠ []) : lastRuneStart s < s.length := by
  have hpos : 0 < s.length := List.length_pos.mpr hs
  unfold lastRuneStart
  split_ifs <;> omega

theorem DecodeLastRuneInString_width_pos (s : List Nat) (hs : s ≠ []) :
    1 ≤ (DecodeLastRuneInString s).2 := by
  have hpos : 0 < s.length := List.length_pos.mpr hs
  have hd : 1 ≤ (DecodeRuneInString (s.drop (lastRuneStart s))).2 := by
    apply DecodeRuneInString_width_pos
    intro h
    have := congrArg List.length h
    have hlt := lastRuneStart_lt s hs
    simp only [List.length_drop, List.length_nil] at this
    omega
  unfold DecodeLastRuneInString
  rw [if_neg (by omega)]
  split
  · exact Nat.le_refl 1
  · simp only []
    split
    · exact Nat.le_refl 1
    · exact hd

/-- The fuel of `trimLeftLoop` is never exhausted before the loop ends: every
skipped rune has at least one byte. -/
theorem trimLeftLoop_fuel (fuel : Nat) : ∀ s : List Nat, s.length ≤ fuel →
    trimLeftLoop (fuel + 1) s = trimLeftLoop fuel s := by
  induction fuel with
  | zero =>
    intro s hs
    have : s = [] := List.length_eq_zero.mp (by omega)
    subst this
    rfl
  | succ f ih =>
    intro s hs
    conv_lhs => rw [trimLeftLoop]
    conv_rhs => rw [trimLeftLoop]
    split
    · rfl
    · rename_i hne
      split
      · apply ih
        have := DecodeRuneInString_width_pos s hne
        have hpos : 0 < s.length := List.length_pos.mpr hne
        simp only [List.length_drop]
        omega
      · rfl

/-- The fuel of `lastIndexLoop` is never exhausted before the loop ends: every
step moves `i` down by at least one byte. -/
theorem lastIndexLoop_fuel (s : List Nat) (fuel : Nat) : ∀ i : Nat, i ≤ fuel → i ≤ s.length →
    lastIndexLoop s (fuel + 1) i = lastIndexLoop s fuel i := by
  induction fuel with
  | zero =>
    intro i hi _
    have : i = 0 := by omega
    subst this
    rfl
  | succ f ih =>
    intro i hi hil
    conv_lhs => rw [lastIndexLoop]
    conv_rhs => rw [lastIndexLoop]
    split
    · rfl
    · rename_i hi0
      have hne : s.take i ≠ [] := by
        intro h
        have := congrArg List.length h
        simp only [List.length_take, List.length_nil] at this
        omega
      have := DecodeLastRuneInString_width_pos _ hne
      split
      · exact ih _ (by omega) (by omega)
      · rfl

/-! ### `strings.TrimSpace` trims the white space -/

theorem splitChars_append (w r : List Nat) (hc : isChar w = true) :
    splitChars (w ++ r) = w :: splitChars r := by
  match w, hc with
  | [], hc => simp [isChar] at hc
  | [b0], hc =>
    show splitChars (b0 :: r) = [b0] :: splitChars r
    conv_lhs => unfold splitChars
    simp [hc]
  | [b0, b1], hc =>
    have h1 : isChar [b0] = false := by
      simp only [isChar, Bool.and_eq_true, decide_eq_true_eq] at hc
      simp only [isChar, decide_eq_false_iff_not]
      omega
    show splitChars (b0 :: b1 :: r) = [b0, b1] :: splitChars r
    conv_lhs => unfold splitChars
    simp [hc, h1]
  | [b0, b1, b2], hc =>
    have h1 : isChar [b0] = false ∧ isChar [b0, b1] = false := by
      simp only [isChar, Bool.and_eq_true, decide_eq_true_eq] at hc
      simp only [isChar, decide_eq_false_iff_not, Bool.and_eq_false_imp, decide_eq_true_eq]
      constructor
      · omega
      · intro h; omega
    show splitChars (b0 :: b1 :: b2 :: r) = [b0, b1, b2] :: splitChars r
    conv_lhs => unfold splitChars
    simp [hc, h1.1, h1.2]
  | [b0, b1, b2, b3], hc =>
    have h1 : isChar [b0] = false ∧ isChar [b0, b1] = false ∧ isChar [b0, b1, b2] = false := by
      simp only [isChar, Bool.and_eq_true, decide_eq_true_eq] at hc
      simp only [isChar, decide_eq_false_iff_not, Bool.and_eq_false_imp, decide_eq_true_eq]
      refine ⟨by omega, ?_, ?_⟩
      · intro h; omega
      · intro h; omega
    show splitChars (b0 :: b1 :: b2 :: b3 :: r) = [b0, b1, b2, b3] :: splitChars r
    conv_lhs => unfold splitChars
    simp [hc, h1.1, h1.2.1, h1.2.2]
  | _ :: _ :: _ :: _ :: _ :: _, hc => simp [isChar] at hc

theorem splitChars_flatten (cs : List (List Nat)) (hcs : ∀ w ∈ cs, isChar w = true) :
    splitChars cs.flatten = cs := by
  induction cs with
  | nil => rfl
  | cons w cs1 ih =>
    rw [List.flatten_cons, splitChars_append w _ (hcs w (List.mem_cons_self _ _)),
      ih (fun x hx => hcs x (List.mem_cons_of_mem _ hx))]

/-- A valid string is the concatenation of its characters. -/
theorem Valid_chars (x : List Nat) (h : Valid x) :
    ∃ cs : List (List Nat), (∀ w ∈ cs, isChar w = true) ∧ cs.flatten = x := by
  induction h with
  | nil => exact ⟨[], by simp, rfl⟩
  | cons w r hc _ ih =>
    obtain ⟨cs, hcs, hfl⟩ := ih
    refine ⟨w :: cs, ?_, by rw [List.flatten_cons, hfl]⟩
    intro x hx
    rcases List.mem_cons.mp hx with rfl | hx
    · exact hc
    · exact hcs x hx

theorem isChar_length_pos (w : List Nat) (hc : isChar w = true) : 1 ≤ w.length := by
  obtain ⟨b, rest, rfl, _⟩ := isChar_shape w hc
  simp

/-- The loop of `TrimLeftFunc` drops exactly the leading white-space characters. -/
theorem trimLeftLoop_chars (cs : List (List Nat)) (hcs : ∀ w ∈ cs, isChar w = true) :
    ∀ fuel : Nat, cs.flatten.length ≤ fuel →
    trimLeftLoop fuel cs.flatten = (cs.dropWhile isSpaceChar).flatten := by
  induction cs with
  | nil =>
    intro fuel _
    cases fuel <;> simp [trimLeftLoop]
  | cons w cs1 ih =>
    intro fuel hf
    have hc := hcs w (List.mem_cons_self _ _)
    have hpos := isChar_length_pos w hc
    rw [List.flatten_cons] at hf ⊢
    rw [List.length_append] at hf
    obtain ⟨f, rfl⟩ : ∃ f, fuel = f + 1 := ⟨fuel - 1, by omega⟩
    have hne : w ++ cs1.flatten ≠ [] := by
      intro h
      have := congrArg List.length h
      simp only [List.length_append, List.length_nil] at this
      omega
    rw [trimLeftLoop, if_neg hne, DecodeRuneInString_eq w _ hc]
    simp only [List.drop_left]
    by_cases hsp : IsSpace (codePoint w) = true
    · have h1 : isSpaceChar w = true := by simp [isSpaceChar, hc, hsp]
      rw [if_pos hsp, List.dropWhile_cons_of_pos h1]
      exact ih (fun x hx => hcs x (List.mem_cons_of_mem _ hx)) f (by omega)
    · have h1 : ¬ isSpaceChar w = true := by simp [isSpaceChar, hc, hsp]
      rw [if_neg hsp, List.dropWhile_cons_of_neg h1, List.flatten_cons]

/-- The loop of `lastIndexFunc` stops at the start of the last character that is
not white space, or returns `-1` when there is none. -/
theorem lastIndexLoop_chars (cs : List (List Nat)) :
    (∀ w ∈ cs, isChar w = true) → ∀ (tl : List Nat) (fuel : Nat),
    cs.flatten.length ≤ fuel →
    lastIndexLoop (cs.flatten ++ tl) fuel cs.flatten.length =
      if cs.rdropWhile isSpaceChar = [] then -1
      else (((cs.rdropWhile isSpaceChar).dropLast.flatten.length : Nat) : Int) := by
  induction cs using List.reverseRecOn with
  | nil =>
    intro _ tl fuel _
    cases fuel <;> simp [lastIndexLoop]
  | append_singleton q w ih =>
    intro hcs tl fuel hf
    have hc := hcs w (by simp)
    have hq : ∀ x ∈ q, isChar x = true := fun x hx => hcs x (by simp [hx])
    have hpos := isChar_length_pos w hc
    rw [List.flatten_concat] at hf ⊢
    rw [List.length_append] at hf ⊢
    obtain ⟨f, rfl⟩ : ∃ f, fuel = f + 1 := ⟨fuel - 1, by omega⟩
    have htake : (q.flatten ++ w ++ tl).take (q.flatten.length + w.length) = q.flatten ++ w := by
      rw [← List.length_append, List.take_left]
    have hdec : DecodeLastRuneInString (q.flatten ++ w) = (codePoint w, w.length) := by
      rw [DecodeLastRuneInString_char q.flatten w hc]
      have := DecodeRuneInString_eq w [] hc
      rwa [List.append_nil] at this
    rw [lastIndexLoop, if_neg (by omega), htake, hdec]
    simp only [Nat.add_sub_cancel]
    by_cases hsp : IsSpace (codePoint w) = true
    · have h1 : isSpaceChar w = true := by simp [isSpaceChar, hc, hsp]
      rw [if_pos hsp, List.rdropWhile_concat_pos _ _ _ h1, List.append_assoc]
      exact ih hq (w ++ tl) f (by omega)
    · have h1 : ¬ isSpaceChar w = true := by simp [isSpaceChar, hc, hsp]
      rw [if_neg hsp, List.rdropWhile_concat_neg _ _ _ h1, if_neg (by simp),
        List.dropLast_concat]

/-- The function `TrimRightFunc` drops exactly the trailing white-space
characters. -/
theorem TrimRightFunc_chars (cs : List (List Nat)) (hcs : ∀ w ∈ cs, isChar w = true) :
    TrimRightFunc cs.flatten = (cs.rdropWhile isSpaceChar).flatten := by
  have hsplit := rdropWhile_append_rtakeWhile isSpaceChar cs
  have hloop := lastIndexLoop_chars cs hcs [] cs.flatten.length (le_refl _)
  rw [List.append_nil] at hloop
  unfold TrimRightFunc
  rw [hloop]
  by_cases hnil : cs.rdropWhile isSpaceChar = []
  · rw [if_pos hnil, hnil]
    simp only [show ¬ ((0 : Int) ≤ -1 ∧ 0x80 ≤ cs.flatten.getD (-1 : Int).toNat 0) by omega,
      if_false]
    rfl
  · rw [if_neg hnil]
    obtain ⟨q, w, hqw⟩ : ∃ q w, cs.rdropWhile isSpaceChar = q ++ [w] :=
      ⟨_, _, (List.dropLast_append_getLast hnil).symm⟩
    have hwmem : w ∈ cs := by
      rw [← hsplit, hqw]
      simp
    have hc := hcs w hwmem
    obtain ⟨b, tl, hw, _, _, _, hascii, _⟩ := isChar_shape w hc
    have hflat : cs.flatten = q.flatten ++ w ++ (cs.rtakeWhile isSpaceChar).flatten := by
      conv_lhs => rw [← hsplit, hqw]
      simp
    rw [hqw, List.dropLast_concat, List.flatten_concat]
    have hget : cs.flatten.getD q.flatten.length 0 = b := by
      rw [hflat, List.append_assoc]
      have := getD_append_add q.flatten (w ++ (cs.rtakeWhile isSpaceChar).flatten) 0
      rw [Nat.add_zero] at this
      rw [this, hw]
      rfl
    have hdrop : cs.flatten.drop q.flatten.length =
        w ++ (cs.rtakeWhile isSpaceChar).flatten := by
      rw [hflat, List.append_assoc, List.drop_left]
    have htake : cs.flatten.take (q.flatten.length + w.length) = q.flatten ++ w := by
      rw [hflat, ← List.length_append, List.take_left]
    simp only [Int.toNat_ofNat, hget, Int.natCast_nonneg, true_and]
    split
    · rw [hdrop, DecodeRuneInString_width w _ hc, htake]
    · rename_i hb
      have htl : tl = [] := hascii (by omega)
      have h1 : w.length = 1 := by rw [hw, htl]; rfl
      have h2 : ((q.flatten.length : Int) + 1).toNat = q.flatten.length + w.length := by omega
      rw [h2, htake]

/-- On valid UTF-8 the model of `strings.TrimSpace` computes what the
specification calls the string with leading and trailing white space trimmed. -/
theorem TrimSpace_eq_trimSpec (a : GoString) (ha : validUTF8 a = true) :
    TrimSpace a = trimSpec a := by
  obtain ⟨cs, hcs, hfl⟩ := Valid_chars a ((validUTF8_iff_Valid a).mp ha)
  subst hfl
  unfold TrimSpace trimSpec
  rw [splitChars_flatten cs hcs, trimLeftLoop_chars cs hcs _ (le_refl _)]
  exact TrimRightFunc_chars _
    (fun w hw => hcs w ((List.dropWhile_sublist isSpaceChar).subset hw))

theorem wrapInt_of_range (x : Int) (h0 : -9223372036854775808 ≤ x)
    (h1 : x < 9223372036854775808) : wrapInt x = x := by
  unfold wrapInt
  omega

/-! ### `SoftTrunc` -/

theorem sliceStr_zero (s : GoString) (hi : Nat) (h : hi ≤ s.length) :
    sliceStr s 0 (hi : Int) = some (s.take hi) := by
  unfold sliceStr
  rw [if_pos ⟨le_refl _, by omega, by omega⟩]
  simp

/-- The state of `SoftTrunc` after its loop: the first `N+2` bytes of `t` are
`p`, one non-continuation byte `b` and continuation bytes `tk`; the loop has
dropped `tk`. -/
theorem softTrunc_loop (t : List Nat) (N : Nat) (ht : Valid t) (hlen : N + 2 < t.length) :
    ∃ (p : List Nat) (b : Nat) (tk : List Nat),
      (t.take (N + 2)).rdropWhile isCont = p ++ [b] ∧
      t.take (N + 2) = p ++ [b] ++ tk ∧ isCont b = false ∧ ∀ x ∈ tk, isCont x = true := by
  have hsplit := rdropWhile_append_rtakeWhile isCont (t.take (N + 2))
  have hne : (t.take (N + 2)).rdropWhile isCont ≠ [] := by
    intro h
    rw [List.rdropWhile_eq_nil_iff] at h
    cases t with
    | nil => simp at hlen
    | cons b0 r0 =>
      have h0 := Valid_head b0 r0 ht
      have := h b0 (by simp [List.take_succ_cons])
      rw [h0] at this
      exact Bool.noConfusion this
  have hlast := List.rdropWhile_last_not isCont (t.take (N + 2)) hne
  refine ⟨((t.take (N + 2)).rdropWhile isCont).dropLast,
    ((t.take (N + 2)).rdropWhile isCont).getLast hne,
    (t.take (N + 2)).rtakeWhile isCont, ?_, ?_, ?_, ?_⟩
  · exact (List.dropLast_append_getLast hne).symm
  · rw [List.dropLast_append_getLast hne, hsplit]
  · simpa using hlast
  · intro x hx
    exact List.mem_rtakeWhile_imp hx

/-- C9 (as stated, refuted): for `n = MaxInt64` and `n = MaxInt64 - 1` the sum
`n+2` wraps to a negative `int`; the test `len(a) <= n+2` fails and the slice
`a[:n+2]` faults, although the trimmed string `ab` has no more than `n+2` bytes
and the claim makes the result that string. -/
theorem SoftTrunc_faults_when_sum_overflows :
    validUTF8 (str "ab") = true ∧
    trimSpec (str "ab") = str "ab" ∧
    (0 : Int) ≤ 9223372036854775806 ∧
    (((trimSpec (str "ab")).length : Int) ≤ 9223372036854775806 + 2) ∧
    SoftTrunc (str "ab") 9223372036854775806 = none ∧
    SoftTrunc (str "ab") 9223372036854775807 = none ∧
    SoftTrunc (str "ab") 9223372036854775806 ≠ some (trimSpec (str "ab")) := by
  refine ⟨by decide, by decide, by decide, by decide, by decide, by decide, by decide⟩

/-- C9 (amended): for valid UTF-8 `a` and `0 ≤ n ≤ MaxInt64 - 2`, let `t` be `a`
with leading and trailing white space trimmed (`trimSpec a`, which is what
`strings.TrimSpace` computes).  If `len(t) ≤ n+2` then `SoftTrunc(a, n) = t`;
otherwise `SoftTrunc(a, n) = p ++ "..."` where `p` is the longest prefix of `t`
of at most `n+1` bytes that ends on a character boundary of `t`.  In both cases
the call returns without a fault, the result is valid UTF-8 and has at most
`n+4` bytes. -/
theorem SoftTrunc_trims_and_cuts_on_boundary (a : GoString) (n : Int)
    (ha : validUTF8 a = true) (hn : 0 ≤ n) (hmax : n ≤ 9223372036854775805) :
    TrimSpace a = trimSpec a ∧
    (((trimSpec a).length : Int) ≤ n + 2 → SoftTrunc a n = some (trimSpec a)) ∧
    (n + 2 < ((trimSpec a).length : Int) →
      ∃ p : GoString, SoftTrunc a n = some (p ++ str "...") ∧ p <+: trimSpec a ∧
        (p.length : Int) ≤ n + 1 ∧ isBoundary (trimSpec a) p.length = true ∧
        ∀ k : Nat, (k : Int) ≤ n + 1 → isBoundary (trimSpec a) k = true → k ≤ p.length) ∧
    (∃ r : GoString, SoftTrunc a n = some r ∧ validUTF8 r = true ∧ (r.length : Int) ≤ n + 4) := by
  have hts := TrimSpace_eq_trimSpec a ha
  have ht : Valid (trimSpec a) := by
    rw [← hts]
    exact TrimSpace_Valid a ((validUTF8_iff_Valid a).mp ha)
  refine ⟨hts, ?_⟩
  unfold SoftTrunc
  simp only []
  rw [hts, wrapInt_of_range (n + 2) (by omega) (by omega)]
  generalize trimSpec a = t at ht
  obtain ⟨N, rfl⟩ := Int.eq_ofNat_of_zero_le hn
  by_cases hle : (t.length : Int) ≤ (N : Int) + 2
  · rw [if_pos hle]
    exact ⟨fun _ => rfl, fun h => absurd h (by omega), t, rfl,
      (validUTF8_iff_Valid t).mpr ht, by omega⟩
  · rw [if_neg hle]
    have hlen : N + 2 < t.length := by omega
    obtain ⟨p, b, tk, hloop, htake, hb, htk⟩ := softTrunc_loop t N ht hlen
    have hs1 : sliceStr t 0 ((N : Int) + 2) = some (t.take (N + 2)) := by
      have := sliceStr_zero t (N + 2) (by omega)
      simpa using this
    have hs2 : sliceStr (p ++ [b]) 0 (((p ++ [b]).length : Int) - 1) = some p := by
      have := sliceStr_zero (p ++ [b]) p.length (by simp)
      rw [List.take_left] at this
      rw [← this]
      congr 1
      simp
    have hres : (match sliceStr t 0 ((N : Int) + 2) with
        | none => none
        | some a =>
          if (List.rdropWhile isCont a).length = 0 then some (List.rdropWhile isCont a)
          else
            match sliceStr (List.rdropWhile isCont a) 0
                (((List.rdropWhile isCont a).length : Int) - 1) with
            | none => none
            | some a => some (a ++ str "...")) = some (p ++ str "...") := by
      rw [hs1]
      simp only [hloop]
      rw [if_neg (by simp), hs2]
    rw [hres]
    have htt : t = p ++ [b] ++ tk ++ t.drop (N + 2) := by
      rw [← htake, List.take_append_drop]
    have hsum : p.length + 1 + tk.length = N + 2 := by
      have := congrArg List.length htake
      simp only [List.length_take, List.length_append, List.length_singleton] at this
      omega
    generalize t.drop (N + 2) = rest at htt
    subst htt
    have hvp : Valid p ∧ Valid (b :: (tk ++ rest)) := by
      have hget : (p ++ [b] ++ tk ++ rest).getD p.length 0 = b := by
        have := getD_append_add p ([b] ++ tk ++ rest) 0
        simpa using this
      have := Valid_cut _ ht p.length (by rw [hget]; exact hb)
      simpa using this
    have hdots : Valid (str "...") := (validUTF8_iff_Valid _).mp (by decide)
    refine ⟨fun h => absurd h hle, fun _ => ⟨p, rfl, ?_, by omega, ?_, ?_⟩,
      p ++ str "...", rfl, (validUTF8_iff_Valid _).mpr (Valid_append _ _ hvp.1 hdots), ?_⟩
    · exact ⟨[b] ++ tk ++ rest, by simp⟩
    · simp only [isBoundary, Bool.and_eq_true, validUTF8_iff_Valid]
      simpa using hvp
    · intro k hk hbd
      by_contra hgt
      simp only [isBoundary, Bool.and_eq_true, validUTF8_iff_Valid] at hbd
      have hk1 : p.length + 1 ≤ k := by omega
      obtain ⟨i, rfl⟩ := Nat.exists_eq_add_of_le hk1
      have hi : i < tk.length := by omega
      have hdrop : (p ++ [b] ++ tk ++ rest).drop (p.length + 1 + i) =
          tk[i] :: (tk.drop (i + 1) ++ rest) := by
        have e : p.length + 1 + i = (p ++ [b]).length + i := by simp
        rw [List.append_assoc (p ++ [b]), e, List.drop_append,
          List.drop_append_of_le_length (by omega), List.drop_eq_getElem_cons hi]
        rfl
      rw [hdrop] at hbd
      have := Valid_head _ _ hbd.2
      rw [htk _ (List.getElem_mem _)] at this
      exact Bool.noConfusion this
    · have : (str "...").length = 3 := by decide
      simp only [List.length_append, this]
      omega

/-- Witness for C9 (amended): blanks, an ideographic space and a tab around
`ab€d`; the cut falls inside the three-byte character `€`.  The values are
pinned: the trimmed string is `ab€d` and the result is `ab...`. -/
theorem SoftTrunc_trims_and_cuts_on_boundary_witness :
    (TrimSpace (str " 　ab€d\t ") = trimSpec (str " 　ab€d\t ") ∧
     (((trimSpec (str " 　ab€d\t ")).length : Int) ≤ 2 + 2 →
       SoftTrunc (str " 　ab€d\t ") 2 = some (trimSpec (str " 　ab€d\t "))) ∧
     ((2 : Int) + 2 < ((trimSpec (str " 　ab€d\t ")).length : Int) →
       ∃ p : GoString, SoftTrunc (str " 　ab€d\t ") 2 = some (p ++ str "...") ∧
         p <+: trimSpec (str " 　ab€d\t ") ∧
         (p.length : Int) ≤ 2 + 1 ∧ isBoundary (trimSpec (str " 　ab€d\t ")) p.length = true ∧
         ∀ k : Nat, (k : Int) ≤ 2 + 1 → isBoundary (trimSpec (str " 　ab€d\t ")) k = true →
           k ≤ p.length) ∧
     (∃ r : GoString, SoftTrunc (str " 　ab€d\t ") 2 = some r ∧ validUTF8 r = true ∧
       (r.length : Int) ≤ 2 + 4)) ∧
    trimSpec (str " 　ab€d\t ") = str "ab€d" ∧
    TrimSpace (str " 　ab€d\t ") = str "ab€d" ∧
    SoftTrunc (str " 　ab€d\t ") 2 = some (str "ab...") :=
  ⟨SoftTrunc_trims_and_cuts_on_boundary (str " 　ab€d\t ") 2 (by decide) (by decide)
      (by decide),
    by decide, by decide, by decide⟩


end Iis
